import Mathlib

/-!
# Tuning results store and validator (onnxruntime/core/framework/tuning_context_impl.h)

A shallow embedding of `TuningResultsManager` and `TuningResultsValidator`.

* A `std::unordered_map<std::string, V>` is a list of key/value pairs in the container's
  iteration order.  The iteration order of a hash container is unspecified, so every statement
  quantifies over all lists (all orders).  `find` returns the first entry with the key, writing
  through an iterator (`it->second`) is `modify`, `insert` does not overwrite.  A new entry is
  put at the end of the list; the manager never iterates over its own map, and result sets are
  compared through `find` (`SameMap`, `SameResults`), so no statement rests on that position.
* `int` kernel ids are `Int`: the code only stores and compares them.
* The mutex of the manager is not part of the state: the functions are the bodies executed
  while the lock is held.
-/

namespace onnxruntime

/-! ## `std::unordered_map<std::string, V>` -/

/-- An unordered map with string keys, as the list of its entries in iteration order. -/
abbrev UMap (V : Type) := List (String × V)

namespace UMap

variable {V : Type}

/-- `m.find(k)`: the mapped value of the entry with key `k`, `none` for `m.end()`. -/
def find : UMap V → String → Option V
  | [], _ => none
  | (k', v) :: rest, k => if k' = k then some v else find rest k

/-- `m.insert({k, v})`: adds the entry when `k` is not a key yet, otherwise leaves `m` alone. -/
def insert (m : UMap V) (k : String) (v : V) : UMap V :=
  match find m k with
  | some _ => m
  | none => m ++ [(k, v)]

/-- Writing through the iterator returned by `m.find(k)`: `it->second = f (it->second)`. -/
def modify : UMap V → String → (V → V) → UMap V
  | [], _, _ => []
  | (k', v) :: rest, k, f => if k' = k then (k', f v) :: rest else (k', v) :: modify rest k f

/-- `m[k] = v`: `operator[]` creates the entry when it is missing, then the value is assigned. -/
def assign (m : UMap V) (k : String) (v : V) : UMap V :=
  match find m k with
  | some _ => modify m k (fun _ => v)
  | none => m ++ [(k, v)]

/-- The keys in iteration order. -/
def keys (m : UMap V) : List String := m.map Prod.fst

/-- Keys of a `std::unordered_map` are unique. -/
def WF (m : UMap V) : Prop := (keys m).Nodup

instance (m : UMap V) : Decidable (WF m) := inferInstanceAs (Decidable (keys m).Nodup)

end UMap

/-- `using KernelMap = std::unordered_map<std::string, int>` (params signature to kernel id). -/
abbrev KernelMap := UMap Int

/-! ## `TuningResultsManager` -/

/-- The manager's data member `results_` (the lock carries no data). -/
structure TuningResultsManager where
  results_ : UMap KernelMap
deriving DecidableEq, Repr

/-- `AddImpl`: keeps an existing entry (a differing id is only logged), inserts otherwise. -/
def AddImpl (_op_signature params_signature : String) (best_id : Int)
    (kernel_map : KernelMap) : KernelMap :=
  match UMap.find kernel_map params_signature with
  | some _ => kernel_map
  | none => UMap.assign kernel_map params_signature best_id

/-- `MergeImpl`: copies the map in when the operation is new, otherwise `AddImpl` per pair in
the iteration order of `kernel_map`. -/
def MergeImpl (op_signature : String) (kernel_map : KernelMap)
    (results : UMap KernelMap) : UMap KernelMap :=
  match UMap.find results op_signature with
  | none => UMap.assign results op_signature kernel_map
  | some _ =>
    kernel_map.foldl
      (fun res kv => UMap.modify res op_signature (AddImpl op_signature kv.1 kv.2)) results

namespace TuningResultsManager

/-- The default-constructed manager. -/
def empty : TuningResultsManager := ⟨[]⟩

/-- `KernelMap Lookup(op_signature)`. -/
def Lookup (self : TuningResultsManager) (op_signature : String) : KernelMap :=
  match UMap.find self.results_ op_signature with
  | none => []
  | some km => km

/-- `int Lookup(op_signature, params_signature)`. -/
def Lookup2 (self : TuningResultsManager) (op_signature params_signature : String) : Int :=
  match UMap.find self.results_ op_signature with
  | none => -1
  | some km =>
    match UMap.find km params_signature with
    | none => -1
    | some id => id

/-- `Add(op_signature, params_signature, best_id)`. -/
def Add (self : TuningResultsManager) (op_signature params_signature : String)
    (best_id : Int) : TuningResultsManager :=
  let results1 :=
    match UMap.find self.results_ op_signature with
    | none => UMap.insert self.results_ op_signature []
    | some _ => self.results_
  ⟨UMap.modify results1 op_signature (AddImpl op_signature params_signature best_id)⟩

/-- `Dump()`: a copy of `results_`. -/
def Dump (self : TuningResultsManager) : UMap KernelMap := self.results_

/-- `Load(results_to_load)`: `MergeImpl` per operation, in the iteration order of the argument. -/
def Load (self : TuningResultsManager) (results_to_load : UMap KernelMap) :
    TuningResultsManager :=
  ⟨results_to_load.foldl (fun res okm => MergeImpl okm.1 okm.2 res) self.results_⟩

/-- `Merge(op_signature, kernel_map)`. -/
def Merge (self : TuningResultsManager) (op_signature : String) (kernel_map : KernelMap) :
    TuningResultsManager :=
  ⟨MergeImpl op_signature kernel_map self.results_⟩

/-- `Clear()`. -/
def Clear (_self : TuningResultsManager) : TuningResultsManager := ⟨[]⟩

end TuningResultsManager

/-! ## Observations of a result set

Two `std::unordered_map`s are equal when they hold the same keys with equal mapped values,
whatever their iteration orders.  For a result set this is: the same operation signatures, and
under each operation the same params-to-id associations. -/

/-- Whether `op` is a key of the result set. -/
def hasOp (r : UMap KernelMap) (op : String) : Bool := (UMap.find r op).isSome

/-- The id recorded for `(op, params)`, if any. -/
def entry (r : UMap KernelMap) (op params : String) : Option Int :=
  (UMap.find r op).bind (fun km => UMap.find km params)

/-- Equality of kernel maps as unordered maps. -/
def SameMap (a b : KernelMap) : Prop := ∀ p, UMap.find a p = UMap.find b p

/-- Equality of result sets as unordered maps of unordered maps. -/
def SameResults (a b : UMap KernelMap) : Prop :=
  (∀ op, hasOp a op = hasOp b op) ∧ ∀ op p, entry a op p = entry b op p

/-! ## Sequences of calls on the manager -/

/-- One call of a mutating public operation of `TuningResultsManager`. -/
inductive Call where
  | Add (op_signature params_signature : String) (best_id : Int)
  | Merge (op_signature : String) (kernel_map : KernelMap)
  | Load (results_to_load : UMap KernelMap)
  | Clear
deriving DecidableEq, Repr

/-- Whether the call is `Clear()`. -/
def Call.isClear : Call → Bool
  | .Clear => true
  | _ => false

/-- The effect of one call on the manager. -/
def Call.apply (s : TuningResultsManager) : Call → TuningResultsManager
  | .Add op p id => s.Add op p id
  | .Merge op m => s.Merge op m
  | .Load r => s.Load r
  | .Clear => s.Clear

/-- The manager after a sequence of calls, first call first. -/
def run (s : TuningResultsManager) (cs : List Call) : TuningResultsManager :=
  cs.foldl Call.apply s

/-- The `(op, params, id)` triples of a kernel map passed for operation `op`. -/
def mergeProposals (op : String) (m : KernelMap) : List (String × String × Int) :=
  m.map (fun kv => (op, kv.1, kv.2))

/-- The `(op, params, id)` triples of a result set, in its iteration order. -/
def loadProposals (r : UMap KernelMap) : List (String × String × Int) :=
  r.flatMap (fun okm => mergeProposals okm.1 okm.2)

/-- The `(op, params, id)` triples a call proposes, in the order the code meets them. -/
def Call.proposals : Call → List (String × String × Int)
  | .Add op p id => [(op, p, id)]
  | .Merge op m => mergeProposals op m
  | .Load r => loadProposals r
  | .Clear => []

/-- The operation signatures a call names. -/
def Call.ops : Call → List String
  | .Add op _ _ => [op]
  | .Merge op _ => [op]
  | .Load r => UMap.keys r
  | .Clear => []

/-- The first id proposed for `(op, params)` in a list of triples. -/
def firstProposal : List (String × String × Int) → String → String → Option Int
  | [], _, _ => none
  | (o, q, i) :: rest, op, p => if o = op ∧ q = p then some i else firstProposal rest op p

/-- No two triples propose different ids for the same `(op, params)`. -/
def NoConflict (l : List (String × String × Int)) : Prop :=
  ∀ t ∈ l, ∀ t' ∈ l, t.1 = t'.1 → t.2.1 = t'.2.1 → t.2.2 = t'.2.2

/-! ## The result set of the specification

The specification's ResultSet is a mapping from operation signature to a mapping from parameter
signature to kernel id.  It is taken here as the pair of its membership function on operations
and its partial function on `(op, params)`, and the three writes are defined from the
specification's words, to be compared with the code above. -/

/-- A ResultSet as a mathematical mapping. -/
structure ResultSet where
  ops : String → Bool
  ids : String → String → Option Int

/-- The ResultSet a concrete `std::unordered_map` of kernel maps stands for. -/
def view (r : UMap KernelMap) : ResultSet := ⟨hasOp r, entry r⟩

/-- Specification of add: "if no entry exists for the key pair, inserts it"; an existing entry,
with the same or a different id, is kept. -/
def spec_add (v : ResultSet) (op p : String) (id : Int) : ResultSet :=
  match v.ids op p with
  | some _ => v
  | none =>
    { ops := fun o => decide (o = op) || v.ops o
      ids := fun o q => if o = op ∧ q = p then some id else v.ids o q }

/-- Specification of mergeInto: "applies add for every (paramSignature, bestId) pair in the
supplied map against the op's existing entry (creating it if absent)". -/
def spec_mergeInto (v : ResultSet) (op : String) (m : KernelMap) : ResultSet :=
  m.foldl (fun acc kv => spec_add acc op kv.1 kv.2)
    { ops := fun o => decide (o = op) || v.ops o, ids := v.ids }

/-- Specification of loadBulk: "applies mergeInto for every operation signature in the supplied
ResultSet". -/
def spec_loadBulk (v : ResultSet) (r : UMap KernelMap) : ResultSet :=
  r.foldl (fun acc okm => spec_mergeInto acc okm.1 okm.2) v

/-- Specification of one call. -/
def spec_apply (v : ResultSet) : Call → ResultSet
  | .Add op p id => spec_add v op p id
  | .Merge op m => spec_mergeInto v op m
  | .Load r => spec_loadBulk v r
  | .Clear => ⟨fun _ => false, fun _ _ => none⟩

/-- The fold of a sequence of calls under the specification's conflict policy. -/
def spec_fold (v : ResultSet) (cs : List Call) : ResultSet := cs.foldl spec_apply v

/-- The fold of a flat list of proposed entries: each one is added when its key is not yet
present. -/
def spec_foldEntries (v : ResultSet) (l : List (String × String × Int)) : ResultSet :=
  l.foldl (fun acc t => spec_add acc t.1 t.2.1 t.2.2) v

/-! ## `TuningResultsValidator` -/

/-- `onnxruntime::common::Status`: `OK` or a failure carrying its message (the category, code
and source location that `ORT_RETURN_IF` adds are left out). -/
inductive Status where
  | OK
  | error (msg : String)
deriving DecidableEq, Repr

/-- `Status::IsOK()`. -/
def Status.IsOK : Status → Bool
  | .OK => true
  | .error _ => false

/-- How a call that may hit `ORT_ENFORCE` ends: it returns a `Status`, or the enforce throws. -/
inductive Outcome where
  | returned (st : Status)
  | enforceFailed
deriving DecidableEq, Repr

/-- `using CheckFunc = std::function<Status(const std::string&)>`. -/
abbrev CheckFunc := String → Status

/-- `using WriteFunc = std::function<std::string()>`. -/
abbrev WriteFunc := Unit → String

/-- `using CheckWriteFuncs = std::unordered_map<std::string, std::pair<CheckFunc, WriteFunc>>`. -/
abbrev CheckWriteFuncs := UMap (CheckFunc × WriteFunc)

/-- The array `mandatory_keys` of `CheckMandatoryKeys`. -/
def mandatory_keys : List String := ["ORT_VERSION", "ORT_GIT_COMMIT", "ORT_BUILD_CONFIG"]

/-- `CheckMandatoryKeys`: every mandatory key is registered and provided (each missing key is
logged, the loop does not stop at the first one). -/
def CheckMandatoryKeys (check_write_funcs : CheckWriteFuncs) (to_check : UMap String) : Bool :=
  mandatory_keys.foldl
    (fun passed k =>
      let passed1 := if (UMap.find check_write_funcs k).isNone then false else passed
      if (UMap.find to_check k).isNone then false else passed1)
    true

/-- `operator<` of `std::string`: lexicographic comparison of the characters. -/
def string_lt (a b : String) : Bool := decide (a.toList < b.toList)

/-- The inner scan of `std::set_intersection` for a fixed current element `a` of the first
range: elements of the second range smaller than `a` are skipped; `k` continues with the rest
of the first range. -/
def set_intersection.scan (a : String) (k : List String → List String) :
    List String → List String
  | [] => []
  | b :: bs =>
    if string_lt a b then k (b :: bs)
    else if string_lt b a then scan a k bs
    else a :: k bs

/-- `std::set_intersection` as the standard libraries implement it: one forward pass over both
ranges, advancing the range whose current element is smaller and emitting an element when
neither is smaller (see `set_intersection_cons_cons` for the loop in one equation).  The ranges
are taken as they are; nothing sorts them. -/
def set_intersection : List String → List String → List String
  | [], _ => []
  | a :: as, l₂ => set_intersection.scan a (set_intersection as) l₂

/-- The iteration order of a `std::unordered_set<std::string>` filled through `std::inserter`:
for each sequence of distinct keys inserted, some arrangement of the same keys.  The standard
leaves the arrangement to the implementation. -/
structure HashOrder where
  order : List String → List String
  perm : ∀ l, l.Nodup → (order l).Perm l

/-- The hash order that enumerates the keys in the order of their insertion. -/
def HashOrder.insertion : HashOrder := ⟨fun l => l, fun l _ => List.Perm.refl l⟩

/-- The hash order that enumerates the keys last inserted first (a node list that grows at its
head). -/
def HashOrder.reversed : HashOrder := ⟨List.reverse, fun l _ => List.reverse_perm l⟩

/-- `CheckKeysMatching`: the key sets of the registry and of the snapshot are copied into two
unordered sets, intersected with `std::set_intersection` over their iteration orders, and the
size of the intersection is compared with the size of each (the unmatched keys are logged). -/
def CheckKeysMatching (h : HashOrder) (cw_funcs : CheckWriteFuncs) (to_check : UMap String) :
    Bool :=
  let required_keys := h.order (UMap.keys cw_funcs).dedup
  let provided_keys := h.order (UMap.keys to_check).dedup
  let intersection := h.order (set_intersection required_keys provided_keys).dedup
  let matched1 := if intersection.length ≠ required_keys.length then false else true
  if intersection.length ≠ provided_keys.length then false else matched1

/-- The per-key loop of `CheckAll`, over the snapshot in its iteration order.  The first
component lists the `(key, value)` pairs on which a check function was invoked, in order. -/
def checkLoop (validators_ : CheckWriteFuncs) :
    UMap String → List (String × String) × Outcome
  | [] => ([], .returned .OK)
  | (key, value) :: rest =>
    match UMap.find validators_ key with
    | none => ([], .enforceFailed)
    | some (checker, _) =>
      match checker value with
      | .error msg => ([(key, value)], .returned (.error msg))
      | .OK =>
        let r := checkLoop validators_ rest
        ((key, value) :: r.1, r.2)

/-- `TuningResultsValidator::CheckAll`, with the list of check invocations it made. -/
def CheckAll (h : HashOrder) (validators_ : CheckWriteFuncs) (to_check : UMap String) :
    List (String × String) × Outcome :=
  let have_mandatory_keys := CheckMandatoryKeys validators_ to_check
  let key_matched := CheckKeysMatching h validators_ to_check
  if !have_mandatory_keys || !key_matched then
    ([], .returned (.error
      "An error occurs during the loading of tuning results. Check logs for more details."))
  else checkLoop validators_ to_check

/-- `TuningResultsValidator::RegisterValidator`: `none` when the `ORT_ENFORCE` on a fresh key
throws. -/
def RegisterValidator (validators_ : CheckWriteFuncs) (key : String) (cf : CheckFunc)
    (wf : WriteFunc) : Option CheckWriteFuncs :=
  match UMap.find validators_ key with
  | some _ => none
  | none => some (UMap.assign validators_ key (cf, wf))

/-- `TuningResultsValidator::CheckOrtVersion`; the macro `ORT_VERSION` is a parameter. -/
def CheckOrtVersion (ORT_VERSION : String) (value : String) : Status :=
  if value ≠ ORT_VERSION then .error "onnxruntime version mismatch" else .OK

/-- `TuningResultsValidator::WriteOrtVersion`. -/
def WriteOrtVersion (ORT_VERSION : String) : WriteFunc := fun _ => ORT_VERSION

/-- `TuningResultsValidator::CheckOrtGitCommit`. -/
def CheckOrtGitCommit (_value : String) : Status := .OK

/-- `TuningResultsValidator::WriteOrtGitCommit`. -/
def WriteOrtGitCommit : WriteFunc := fun _ => ""

/-- `TuningResultsValidator::WriteOrtBuildConfig` of the base class. -/
def WriteOrtBuildConfig : WriteFunc := fun _ => ""

/-- `TuningResultsValidator::CheckOrtBuildConfig`; the call of the virtual
`WriteOrtBuildConfig` goes to the function given. -/
def CheckOrtBuildConfig (writeOrtBuildConfig : WriteFunc) (value : String) : Status :=
  let current := writeOrtBuildConfig ()
  if current ≠ value then
    .error ("onnxruntime building configuration mismatch: tuning results produced with library \""
      ++ value ++ "\", current library built with \"" ++ current ++ "\"")
  else .OK

/-- The constructor `TuningResultsValidator::TuningResultsValidator()`: the three registrations
on the empty registry, `none` when one of them throws. -/
def TuningResultsValidator.ctor (ORT_VERSION : String) (writeOrtBuildConfig : WriteFunc) :
    Option CheckWriteFuncs :=
  (RegisterValidator [] "ORT_VERSION" (CheckOrtVersion ORT_VERSION)
      (WriteOrtVersion ORT_VERSION)).bind fun v1 =>
  (RegisterValidator v1 "ORT_GIT_COMMIT" CheckOrtGitCommit WriteOrtGitCommit).bind fun v2 =>
  RegisterValidator v2 "ORT_BUILD_CONFIG" (CheckOrtBuildConfig writeOrtBuildConfig)
    writeOrtBuildConfig

/-- The registry held by the object after the call `RegisterValidator(key, cf, wf)`: the
`ORT_ENFORCE` is the first statement, so when it throws the assignment has not run. -/
def RegisterValidator.after (validators_ : CheckWriteFuncs) (key : String) (cf : CheckFunc)
    (wf : WriteFunc) : CheckWriteFuncs :=
  match UMap.find validators_ key with
  | some _ => validators_
  | none => UMap.assign validators_ key (cf, wf)

/-- `TuningResultsValidator::WriteAll`: `ret[key] = writer()` per registered pair, in the
iteration order of the registry. -/
def WriteAll (validators_ : CheckWriteFuncs) : UMap String :=
  validators_.foldl (fun ret kw => UMap.assign ret kw.1 (kw.2.2 ())) []

/-! ## The CUDA and ROCm validators

The probes of the accelerator runtime (`cudaRuntimeGetVersion`, `hipRuntimeGetVersion`,
`rocblas_get_version_string`, the device properties of the execution provider) are external;
the values they deliver are parameters. -/

/-- `cuda::tunable::WriteCudaVersion`: `std::to_string` of the runtime version. -/
def cuda.tunable.WriteCudaVersion (version : Int) : WriteFunc := fun _ => toString version

/-- `cuda::tunable::CheckCudaVersion`. -/
def cuda.tunable.CheckCudaVersion (version : Int) (value : String) : Status :=
  let current := cuda.tunable.WriteCudaVersion version ()
  if current ≠ value then
    .error ("CUDA runtime version mismatch: tuning results produced with CUDA " ++ value
      ++ ", onnxruntime currently run with CUDA " ++ current)
  else .OK

/-- `CudaTuningResultsValidator::WriteDeviceModel`: the name in the device properties. -/
def cuda.tunable.WriteDeviceModel (deviceName : String) : WriteFunc := fun _ => deviceName

/-- `CudaTuningResultsValidator::CheckDeviceModel`. -/
def cuda.tunable.CheckDeviceModel (deviceName : String) (value : String) : Status :=
  let current := cuda.tunable.WriteDeviceModel deviceName ()
  if current ≠ value then
    .error ("Device model mismatch: tuning results produced with device " ++ value
      ++ ", onnxruntime currently run with device " ++ current)
  else .OK

/-- The constructor `CudaTuningResultsValidator::CudaTuningResultsValidator(ep)`: the base
class constructor, then the two registrations; `none` when a registration throws. -/
def cuda.tunable.CudaTuningResultsValidator.ctor (ORT_VERSION : String) (version : Int)
    (deviceName : String) : Option CheckWriteFuncs :=
  (TuningResultsValidator.ctor ORT_VERSION WriteOrtBuildConfig).bind fun v0 =>
  (RegisterValidator v0 "CUDA_VERSION" (cuda.tunable.CheckCudaVersion version)
      (cuda.tunable.WriteCudaVersion version)).bind fun v1 =>
  RegisterValidator v1 "DEVICE_MODEL" (cuda.tunable.CheckDeviceModel deviceName)
    (cuda.tunable.WriteDeviceModel deviceName)

/-- `rocm::tunable::WriteHipVersion`. -/
def rocm.tunable.WriteHipVersion (version : Int) : WriteFunc := fun _ => toString version

/-- `rocm::tunable::CheckHipVersion`. -/
def rocm.tunable.CheckHipVersion (version : Int) (value : String) : Status :=
  let current := rocm.tunable.WriteHipVersion version ()
  if current ≠ value then
    .error ("HIP runtime version mismatch: tuning results produced with HIP " ++ value
      ++ ", onnxruntime currently run with HIP " ++ current)
  else .OK

/-- `rocm::tunable::WriteRocBlasVersion`: the version string of the library, cut by
`buf[63] = 0` to at most 63 characters. -/
def rocm.tunable.WriteRocBlasVersion (versionString : String) : WriteFunc :=
  fun _ => versionString.take 63

/-- `rocm::tunable::CheckRocBlasVersion`. -/
def rocm.tunable.CheckRocBlasVersion (versionString : String) (value : String) : Status :=
  let current := rocm.tunable.WriteRocBlasVersion versionString ()
  if current ≠ value then
    .error ("rocblas runtime version mismatch: tuning results produced with rocblas " ++ value
      ++ ", onnxruntime currently run with rocblas " ++ current)
  else .OK

/-- `RocmTuningResultsValidator::WriteDeviceModel`. -/
def rocm.tunable.WriteDeviceModel (deviceName : String) : WriteFunc := fun _ => deviceName

/-- `RocmTuningResultsValidator::CheckDeviceModel`. -/
def rocm.tunable.CheckDeviceModel (deviceName : String) (value : String) : Status :=
  let current := rocm.tunable.WriteDeviceModel deviceName ()
  if current ≠ value then
    .error ("Device model mismatch: tuning results produced with device " ++ value
      ++ ", onnxruntime currently run with device " ++ current)
  else .OK

/-- `RocmTuningResultsValidator::WriteOrtBuildConfig`, the override of the base method; the
macro `USE_COMPOSABLE_KERNEL` and whether `USE_ROCBLAS_EXTENSION_API` is defined are
parameters. -/
def rocm.tunable.WriteOrtBuildConfig (USE_COMPOSABLE_KERNEL : Nat)
    (USE_ROCBLAS_EXTENSION_API : Bool) : WriteFunc :=
  fun _ => "USE_CK=" ++ toString USE_COMPOSABLE_KERNEL ++ "|" ++ "USE_ROCBLAS_EXTENSION_API"
    ++ (if USE_ROCBLAS_EXTENSION_API then "1" else "0") ++ "|"

/-- The constructor `RocmTuningResultsValidator::RocmTuningResultsValidator(ep)`: the base
class constructor (whose build-config lambdas reach the override), then the three
registrations; `none` when a registration throws. -/
def rocm.tunable.RocmTuningResultsValidator.ctor (ORT_VERSION : String) (hipVersion : Int)
    (rocblasVersion deviceName : String) (USE_COMPOSABLE_KERNEL : Nat)
    (USE_ROCBLAS_EXTENSION_API : Bool) : Option CheckWriteFuncs :=
  (TuningResultsValidator.ctor ORT_VERSION
      (rocm.tunable.WriteOrtBuildConfig USE_COMPOSABLE_KERNEL USE_ROCBLAS_EXTENSION_API)).bind
    fun v0 =>
  (RegisterValidator v0 "HIP_VERSION" (rocm.tunable.CheckHipVersion hipVersion)
      (rocm.tunable.WriteHipVersion hipVersion)).bind fun v1 =>
  (RegisterValidator v1 "ROCBLAS_VERSION" (rocm.tunable.CheckRocBlasVersion rocblasVersion)
      (rocm.tunable.WriteRocBlasVersion rocblasVersion)).bind fun v2 =>
  RegisterValidator v2 "DEVICE_MODEL" (rocm.tunable.CheckDeviceModel deviceName)
    (rocm.tunable.WriteDeviceModel deviceName)

/-! ## `ITuningContext::LoadTuningResults` -/

/-- Modelled from the spec: `TuningResults` (tuning_results.h is not among the sources), the
PersistedTuningState of the specification: "an environment-identifier string, an
EnvironmentSnapshot, and a ResultSet". -/
structure TuningResults where
  ep : String
  validators : UMap String
  results : UMap KernelMap

/-- Modelled from the spec: the body of `ITuningContext::LoadTuningResults`, which the sources
only declare.  The specification's load "calls `checkAll(state.snapshot)`; only on success does
it call `loadBulk(state.results)` on the store".  The result is the outcome of the call, the
manager after it, and whether `Load` was invoked on the manager. -/
def LoadTuningResults (h : HashOrder) (validator : CheckWriteFuncs)
    (manager : TuningResultsManager) (tr : TuningResults) :
    Outcome × TuningResultsManager × Bool :=
  match (CheckAll h validator tr.validators).2 with
  | .returned .OK => (.returned .OK, manager.Load tr.results, true)
  | .returned (.error msg) => (.returned (.error msg), manager, false)
  | .enforceFailed => (.enforceFailed, manager, false)

/-! ## The lock of `TuningResultsManager`

Each function is given the sequence of what it does with the mutex `lock_` and with the map
`results_`: `std::scoped_lock l{lock_}` acquires at the point of the declaration and releases
at the end of the function body. -/

/-- What a step of a function does to the manager's mutex or map. -/
inductive LockEvent where
  | lock
  | unlock
  | access
deriving DecidableEq, Repr

/-- `AddImpl`: works on the kernel map it is handed, takes no lock. -/
def AddImpl.events : List LockEvent := [.access]

/-- `MergeImpl`: the lookup of the operation, then the copy or one `AddImpl` per pair. -/
def MergeImpl.events (op_signature : String) (kernel_map : KernelMap)
    (results : UMap KernelMap) : List LockEvent :=
  .access ::
    (match UMap.find results op_signature with
     | none => [.access]
     | some _ => kernel_map.flatMap (fun _ => AddImpl.events))

/-- The loop of `Load`: `MergeImpl` per operation on the map as it stands. -/
def loadLoopEvents : UMap KernelMap → UMap KernelMap → List LockEvent
  | _, [] => []
  | results, (op, km) :: rest =>
    MergeImpl.events op km results ++ loadLoopEvents (MergeImpl op km results) rest

namespace TuningResultsManager

/-- `Lookup(op_signature)`. -/
def Lookup.events : List LockEvent := [.lock, .access, .unlock]

/-- `Lookup(op_signature, params_signature)`. -/
def Lookup2.events : List LockEvent := [.lock, .access, .unlock]

/-- `Add`. -/
def Add.events : List LockEvent := [.lock, .access] ++ AddImpl.events ++ [.unlock]

/-- `Dump`. -/
def Dump.events : List LockEvent := [.lock, .access, .unlock]

/-- `Load`. -/
def Load.events (self : TuningResultsManager) (results_to_load : UMap KernelMap) :
    List LockEvent :=
  .lock :: loadLoopEvents self.results_ results_to_load ++ [.unlock]

/-- `Merge`. -/
def Merge.events (self : TuningResultsManager) (op_signature : String)
    (kernel_map : KernelMap) : List LockEvent :=
  .lock :: MergeImpl.events op_signature kernel_map self.results_ ++ [.unlock]

/-- `Clear`: the body is the single assignment `results_ = {}`. -/
def Clear.events : List LockEvent := [.access]

end TuningResultsManager

/-- The function acquires the lock first, releases it last, and in between only works on the
map: it holds the lock for its full duration and never acquires it a second time. -/
def HoldsLockThroughout (es : List LockEvent) : Prop :=
  ∃ body, es = .lock :: body ++ [.unlock] ∧ ∀ e ∈ body, e = LockEvent.access

/-! ## Lemmas on `UMap` -/

namespace UMap

variable {V : Type}

theorem find_append (m n : UMap V) (k : String) :
    find (m ++ n) k = (find m k).or (find n k) := by
  induction m with
  | nil => simp [find]
  | cons e rest ih =>
    obtain ⟨k', v⟩ := e
    by_cases h : k' = k <;> simp [find, h, ih]

theorem find_modify (m : UMap V) (k : String) (f : V → V) (k' : String) :
    find (modify m k f) k' = if k' = k then (find m k).map f else find m k' := by
  induction m with
  | nil => simp [find, modify]
  | cons e rest ih =>
    obtain ⟨k0, v⟩ := e
    by_cases h : k0 = k
    · subst h
      by_cases h' : k0 = k'
      · subst h'; simp [find, modify]
      · have h'' : ¬ k' = k0 := fun c => h' c.symm
        simp [find, modify, h', h'']
    · by_cases h' : k0 = k'
      · subst h'; simp [find, modify, h]
      · simp [find, modify, h, h', ih]

theorem modify_eq_self (m : UMap V) (k : String) (f : V → V)
    (h : ∀ v, find m k = some v → f v = v) : modify m k f = m := by
  induction m with
  | nil => rfl
  | cons e rest ih =>
    obtain ⟨k0, v⟩ := e
    by_cases hk : k0 = k
    · subst hk
      have : f v = v := h v (by simp [find])
      simp [modify, this]
    · simp only [modify, hk, if_false]
      rw [ih (fun v hv => h v (by simpa [find, hk] using hv))]

theorem find_insert (m : UMap V) (k : String) (v : V) (k' : String) :
    find (insert m k v) k' = if k' = k then (find m k).or (some v) else find m k' := by
  unfold insert
  cases hf : find m k with
  | some w =>
    by_cases h : k' = k
    · subst h; simp [hf]
    · simp [h]
  | none =>
    by_cases h : k' = k
    · subst h; simp [find_append, hf, find]
    · have h' : ¬ k = k' := fun c => h c.symm
      simp [find_append, find, h, h']

theorem find_assign (m : UMap V) (k : String) (v : V) (k' : String) :
    find (assign m k v) k' = if k' = k then some v else find m k' := by
  unfold assign
  cases hf : find m k with
  | some w =>
    by_cases h : k' = k
    · subst h; simp [find_modify, hf]
    · simp [find_modify, h]
  | none =>
    by_cases h : k' = k
    · subst h; simp [find_append, hf, find]
    · have h' : ¬ k = k' := fun c => h c.symm
      simp [find_append, find, h, h']

theorem find_isSome_iff_mem_keys (m : UMap V) (k : String) :
    (find m k).isSome = true ↔ k ∈ keys m := by
  induction m with
  | nil => simp [find, keys]
  | cons e rest ih =>
    obtain ⟨k0, v⟩ := e
    by_cases h : k0 = k
    · subst h; simp [find, keys]
    · have h' : ¬ k = k0 := fun c => h c.symm
      simpa [find, keys, h, h'] using ih

end UMap

/-! ## Lemmas on the manager's operations -/

theorem find_AddImpl (op p : String) (id : Int) (km : KernelMap) (p' : String) :
    UMap.find (AddImpl op p id km) p'
      = if p' = p then (UMap.find km p).or (some id) else UMap.find km p' := by
  unfold AddImpl
  cases hf : UMap.find km p with
  | some w =>
    by_cases h : p' = p
    · subst h; simp [hf]
    · simp [h]
  | none =>
    by_cases h : p' = p
    · subst h; simp [UMap.find_assign]
    · simp [UMap.find_assign, h]

theorem AddImpl_eq_self (op p : String) (id : Int) (km : KernelMap)
    (h : UMap.find km p ≠ none) : AddImpl op p id km = km := by
  unfold AddImpl
  cases hf : UMap.find km p with
  | some w => rfl
  | none => exact absurd hf h

theorem find_Add (s : TuningResultsManager) (op p : String) (id : Int) (op' : String) :
    UMap.find (s.Add op p id).results_ op'
      = if op' = op then some (AddImpl op p id (s.Lookup op)) else UMap.find s.results_ op' := by
  unfold TuningResultsManager.Add TuningResultsManager.Lookup
  cases hf : UMap.find s.results_ op with
  | some km =>
    by_cases h : op' = op
    · subst h; simp [UMap.find_modify, hf]
    · simp [UMap.find_modify, h]
  | none =>
    by_cases h : op' = op
    · subst h; simp [UMap.find_modify, UMap.find_insert, hf]
    · simp [UMap.find_modify, UMap.find_insert, h]

theorem hasOp_Add (s : TuningResultsManager) (op p : String) (id : Int) (op' : String) :
    hasOp (s.Add op p id).Dump op' = (decide (op' = op) || hasOp s.Dump op') := by
  unfold hasOp TuningResultsManager.Dump
  rw [find_Add]
  by_cases h : op' = op <;> simp [h]

theorem entry_eq_find_Lookup (s : TuningResultsManager) (op p : String) :
    entry s.Dump op p = UMap.find (s.Lookup op) p := by
  unfold entry TuningResultsManager.Dump TuningResultsManager.Lookup
  cases hf : UMap.find s.results_ op <;> simp [UMap.find]

theorem entry_Add (s : TuningResultsManager) (op p : String) (id : Int) (op' p' : String) :
    entry (s.Add op p id).Dump op' p'
      = if op' = op ∧ p' = p then (entry s.Dump op p).or (some id) else entry s.Dump op' p' := by
  by_cases h : op' = op
  · subst h
    have e1 : entry (s.Add op' p id).Dump op' p'
        = UMap.find (AddImpl op' p id (s.Lookup op')) p' := by
      simp [entry, TuningResultsManager.Dump, find_Add]
    rw [e1, find_AddImpl, entry_eq_find_Lookup, entry_eq_find_Lookup]
    simp
  · simp [entry, TuningResultsManager.Dump, find_Add, h]

theorem Add_eq_self (s : TuningResultsManager) (op p : String) (id : Int)
    (h : entry s.Dump op p ≠ none) : s.Add op p id = s := by
  unfold entry TuningResultsManager.Dump at h
  cases hf : UMap.find s.results_ op with
  | none => simp [hf] at h
  | some km =>
    rw [hf] at h
    simp only [Option.some_bind] at h
    unfold TuningResultsManager.Add
    simp only [hf]
    rw [UMap.modify_eq_self]
    intro v hv
    rw [hf] at hv
    cases hv
    exact AddImpl_eq_self op p id km h

/-- Folding `AddImpl` over the pairs of a map, as `MergeImpl` does on the entry of `op`. -/
theorem find_foldl_AddImpl (op : String) (m km : KernelMap) (p : String) :
    UMap.find (m.foldl (fun acc kv => AddImpl op kv.1 kv.2 acc) km) p
      = (UMap.find km p).or (UMap.find m p) := by
  induction m generalizing km with
  | nil => simp [UMap.find]
  | cons e rest ih =>
    obtain ⟨k, v⟩ := e
    simp only [List.foldl_cons]
    rw [ih, find_AddImpl]
    by_cases h : k = p
    · subst h
      cases hk : UMap.find km k <;> simp [UMap.find]
    · have h' : ¬ p = k := fun c => h c.symm
      cases hk : UMap.find km p <;> simp [UMap.find, h, h']

theorem foldl_modify_AddImpl (op : String) (m : KernelMap) (r : UMap KernelMap) (km : KernelMap)
    (hf : UMap.find r op = some km) (op' : String) :
    UMap.find (m.foldl (fun res kv => UMap.modify res op (AddImpl op kv.1 kv.2)) r) op'
      = if op' = op then some (m.foldl (fun acc kv => AddImpl op kv.1 kv.2 acc) km)
        else UMap.find r op' := by
  induction m generalizing r km with
  | nil =>
    by_cases h : op' = op
    · subst h; simpa using hf
    · simp [h]
  | cons e rest ih =>
    simp only [List.foldl_cons]
    rw [ih (UMap.modify r op (AddImpl op e.1 e.2)) (AddImpl op e.1 e.2 km)
      (by simp [UMap.find_modify, hf])]
    by_cases h : op' = op
    · simp [h]
    · simp [h, UMap.find_modify]

theorem hasOp_MergeImpl (op : String) (m : KernelMap) (r : UMap KernelMap) (op' : String) :
    hasOp (MergeImpl op m r) op' = (decide (op' = op) || hasOp r op') := by
  unfold hasOp MergeImpl
  cases hf : UMap.find r op with
  | none =>
    by_cases h : op' = op <;> simp [UMap.find_assign, h]
  | some km =>
    simp only []
    rw [foldl_modify_AddImpl op m r km hf]
    by_cases h : op' = op
    · subst h; simp
    · simp [h]

theorem entry_MergeImpl (op : String) (m : KernelMap) (r : UMap KernelMap) (op' p : String) :
    entry (MergeImpl op m r) op' p
      = if op' = op then (entry r op p).or (UMap.find m p) else entry r op' p := by
  unfold entry MergeImpl
  cases hf : UMap.find r op with
  | none =>
    by_cases h : op' = op
    · subst h; simp [UMap.find_assign]
    · simp [UMap.find_assign, h]
  | some km =>
    simp only []
    rw [foldl_modify_AddImpl op m r km hf]
    by_cases h : op' = op
    · subst h; simp [find_foldl_AddImpl]
    · simp [h]

theorem find_MergeImpl_of_ne (op : String) (m : KernelMap) (r : UMap KernelMap) (op' : String)
    (h : op' ≠ op) : UMap.find (MergeImpl op m r) op' = UMap.find r op' := by
  unfold MergeImpl
  cases hf : UMap.find r op with
  | none => simp [UMap.find_assign, h]
  | some km =>
    simp only []
    rw [foldl_modify_AddImpl op m r km hf]
    simp [h]

/-! ## Lemmas on proposals -/

theorem firstProposal_append (a b : List (String × String × Int)) (op p : String) :
    firstProposal (a ++ b) op p = (firstProposal a op p).or (firstProposal b op p) := by
  induction a with
  | nil => simp [firstProposal]
  | cons e rest ih =>
    obtain ⟨o, q, i⟩ := e
    by_cases h : o = op ∧ q = p <;> simp [firstProposal, h, ih]

theorem firstProposal_mergeProposals (op : String) (m : KernelMap) (op' p : String) :
    firstProposal (mergeProposals op m) op' p = if op' = op then UMap.find m p else none := by
  induction m with
  | nil => simp [mergeProposals, firstProposal, UMap.find]
  | cons e rest ih =>
    obtain ⟨k, v⟩ := e
    unfold mergeProposals at ih ⊢
    by_cases h : op' = op
    · subst h
      by_cases hk : k = p
      · simp [firstProposal, UMap.find, hk]
      · simpa [firstProposal, UMap.find, hk] using ih
    · have h' : ¬ op = op' := fun c => h c.symm
      simpa [firstProposal, h, h'] using ih

theorem firstProposal_mem (l : List (String × String × Int)) (op p : String) (i : Int)
    (h : firstProposal l op p = some i) : (op, p, i) ∈ l := by
  induction l with
  | nil => simp [firstProposal] at h
  | cons e rest ih =>
    obtain ⟨o, q, j⟩ := e
    by_cases hk : o = op ∧ q = p
    · obtain ⟨rfl, rfl⟩ := hk
      simp [firstProposal] at h
      simp [h]
    · simp only [firstProposal, hk, if_false] at h
      exact List.mem_cons_of_mem _ (ih h)

theorem firstProposal_eq_none (l : List (String × String × Int)) (op p : String) :
    firstProposal l op p = none ↔ ∀ i, (op, p, i) ∉ l := by
  induction l with
  | nil => simp [firstProposal]
  | cons e rest ih =>
    obtain ⟨o, q, j⟩ := e
    by_cases hk : o = op ∧ q = p
    · obtain ⟨rfl, rfl⟩ := hk
      simp only [firstProposal, and_self, if_true]
      constructor
      · intro h; cases h
      · intro h; exact absurd (List.mem_cons_self _ _) (h j)
    · simp only [firstProposal, hk, if_false, ih]
      constructor
      · intro h i hmem
        rcases List.mem_cons.mp hmem with heq | hin
        · apply hk
          simp only [Prod.mk.injEq] at heq
          exact ⟨heq.1.symm, heq.2.1.symm⟩
        · exact h i hin
      · intro h i hin
        exact h i (List.mem_cons_of_mem _ hin)

/-- Without conflicts the first proposal for a key does not depend on the order. -/
theorem firstProposal_perm (l₁ l₂ : List (String × String × Int)) (hp : l₁.Perm l₂)
    (hc : NoConflict l₁) (op p : String) : firstProposal l₁ op p = firstProposal l₂ op p := by
  cases h2 : firstProposal l₂ op p with
  | none =>
    rw [firstProposal_eq_none] at h2 ⊢
    intro i hi
    exact h2 i (hp.mem_iff.mp hi)
  | some j =>
    cases h1 : firstProposal l₁ op p with
    | none =>
      rw [firstProposal_eq_none] at h1
      exact absurd (hp.mem_iff.mpr (firstProposal_mem _ _ _ _ h2)) (h1 j)
    | some i =>
      have m1 := firstProposal_mem _ _ _ _ h1
      have m2 := hp.mem_iff.mpr (firstProposal_mem _ _ _ _ h2)
      have := hc _ m1 _ m2 rfl rfl
      simp only at this
      rw [this]

theorem entry_foldl_MergeImpl (r : UMap KernelMap) (r0 : UMap KernelMap) (op p : String) :
    entry (r.foldl (fun res okm => MergeImpl okm.1 okm.2 res) r0) op p
      = (entry r0 op p).or (firstProposal (loadProposals r) op p) := by
  induction r generalizing r0 with
  | nil => simp [loadProposals, firstProposal]
  | cons e rest ih =>
    simp only [List.foldl_cons]
    rw [ih, entry_MergeImpl]
    have hl : loadProposals (e :: rest) = mergeProposals e.1 e.2 ++ loadProposals rest := by
      simp [loadProposals]
    rw [hl, firstProposal_append, firstProposal_mergeProposals]
    by_cases h : op = e.1
    · subst h; simp [Option.or_assoc]
    · simp [h]

theorem hasOp_foldl_MergeImpl (r : UMap KernelMap) (r0 : UMap KernelMap) (op : String) :
    hasOp (r.foldl (fun res okm => MergeImpl okm.1 okm.2 res) r0) op
      = (hasOp r0 op || decide (op ∈ UMap.keys r)) := by
  induction r generalizing r0 with
  | nil => simp [UMap.keys]
  | cons e rest ih =>
    simp only [List.foldl_cons]
    rw [ih, hasOp_MergeImpl]
    by_cases h : op = e.1
    · subst h; simp [UMap.keys]
    · have hb : (op == e.1) = false := by simpa using h
      simp [UMap.keys, h, hb]

theorem find_foldl_MergeImpl_of_not_mem (r : UMap KernelMap) (r0 : UMap KernelMap) (op : String)
    (h : op ∉ UMap.keys r) :
    UMap.find (r.foldl (fun res okm => MergeImpl okm.1 okm.2 res) r0) op = UMap.find r0 op := by
  induction r generalizing r0 with
  | nil => rfl
  | cons e rest ih =>
    simp only [List.foldl_cons]
    have h1 : op ≠ e.1 := fun c => h (by simp [UMap.keys, c])
    have h2 : op ∉ UMap.keys rest := fun c => h (by
      unfold UMap.keys at c ⊢
      exact List.mem_cons_of_mem _ c)
    rw [ih _ h2, find_MergeImpl_of_ne _ _ _ _ h1]

/-! ## Lemmas on sequences of calls -/

theorem entry_apply (s : TuningResultsManager) (c : Call) (hc : c.isClear = false)
    (op p : String) :
    entry (c.apply s).Dump op p = (entry s.Dump op p).or (firstProposal c.proposals op p) := by
  cases c with
  | Add o q id =>
    simp only [Call.apply, Call.proposals, firstProposal]
    rw [entry_Add]
    by_cases h : op = o ∧ p = q
    · obtain ⟨rfl, rfl⟩ := h; simp
    · have h' : ¬ (o = op ∧ q = p) := fun c => h ⟨c.1.symm, c.2.symm⟩
      simp [h, h']
  | Merge o m =>
    simp only [Call.apply, Call.proposals, TuningResultsManager.Merge,
      TuningResultsManager.Dump]
    rw [entry_MergeImpl, firstProposal_mergeProposals]
    by_cases h : op = o
    · subst h; simp
    · simp [h]
  | Load r =>
    simp only [Call.apply, Call.proposals, TuningResultsManager.Load, TuningResultsManager.Dump]
    exact entry_foldl_MergeImpl r s.results_ op p
  | Clear => simp [Call.isClear] at hc

theorem hasOp_apply (s : TuningResultsManager) (c : Call) (hc : c.isClear = false)
    (op : String) :
    hasOp (c.apply s).Dump op = (hasOp s.Dump op || decide (op ∈ c.ops)) := by
  cases c with
  | Add o q id =>
    simp only [Call.apply, Call.ops]
    rw [hasOp_Add]
    by_cases h : op = o <;> simp [h, Bool.or_comm]
  | Merge o m =>
    simp only [Call.apply, Call.ops, TuningResultsManager.Merge, TuningResultsManager.Dump]
    rw [hasOp_MergeImpl]
    by_cases h : op = o <;> simp [h, Bool.or_comm]
  | Load r =>
    simp only [Call.apply, Call.ops, TuningResultsManager.Load, TuningResultsManager.Dump]
    exact hasOp_foldl_MergeImpl r s.results_ op
  | Clear => simp [Call.isClear] at hc

theorem entry_run (cs : List Call) (s : TuningResultsManager)
    (hc : ∀ c ∈ cs, c.isClear = false) (op p : String) :
    entry (run s cs).Dump op p
      = (entry s.Dump op p).or (firstProposal (cs.flatMap Call.proposals) op p) := by
  induction cs generalizing s with
  | nil => simp [run, firstProposal]
  | cons c rest ih =>
    have h1 := hc c (List.mem_cons_self _ _)
    have h2 : ∀ c' ∈ rest, c'.isClear = false := fun c' hm => hc c' (List.mem_cons_of_mem _ hm)
    have hr : run s (c :: rest) = run (c.apply s) rest := rfl
    rw [hr, ih _ h2, entry_apply s c h1]
    simp [firstProposal_append, Option.or_assoc]

theorem hasOp_run (cs : List Call) (s : TuningResultsManager)
    (hc : ∀ c ∈ cs, c.isClear = false) (op : String) :
    hasOp (run s cs).Dump op = (hasOp s.Dump op || decide (op ∈ cs.flatMap Call.ops)) := by
  induction cs generalizing s with
  | nil => simp [run]
  | cons c rest ih =>
    have h1 := hc c (List.mem_cons_self _ _)
    have h2 : ∀ c' ∈ rest, c'.isClear = false := fun c' hm => hc c' (List.mem_cons_of_mem _ hm)
    have hr : run s (c :: rest) = run (c.apply s) rest := rfl
    rw [hr, ih _ h2, hasOp_apply s c h1]
    by_cases hm : op ∈ c.ops <;> simp [hm, Bool.or_assoc]

/-! ## Lemmas on well-formed maps -/

namespace UMap

variable {V : Type}

theorem find_eq_none_iff (m : UMap V) (k : String) : find m k = none ↔ k ∉ keys m := by
  rw [← find_isSome_iff_mem_keys]
  cases find m k <;> simp

theorem mem_of_find_eq_some (m : UMap V) (k : String) (v : V) (h : find m k = some v) :
    (k, v) ∈ m := by
  induction m with
  | nil => simp [find] at h
  | cons e rest ih =>
    obtain ⟨k0, w⟩ := e
    by_cases hk : k0 = k
    · subst hk
      simp [find] at h
      simp [h]
    · simp only [find, hk, if_false] at h
      exact List.mem_cons_of_mem _ (ih h)

theorem find_eq_some_of_mem (m : UMap V) (hwf : WF m) (k : String) (v : V) (h : (k, v) ∈ m) :
    find m k = some v := by
  induction m with
  | nil => simp at h
  | cons e rest ih =>
    obtain ⟨k0, w⟩ := e
    unfold WF keys at hwf
    simp only [List.map_cons, List.nodup_cons] at hwf
    rcases List.mem_cons.mp h with heq | hin
    · cases heq; simp [find]
    · have hne : k0 ≠ k := by
        intro c
        subst c
        exact hwf.1 (List.mem_map_of_mem Prod.fst hin)
      simp only [find, hne, if_false]
      exact ih hwf.2 hin

/-- The lookup of a well-formed map does not depend on its iteration order. -/
theorem find_perm (m m' : UMap V) (hwf : WF m) (hp : m'.Perm m) (k : String) :
    find m' k = find m k := by
  have hwf' : WF m' := (hp.map Prod.fst).nodup_iff.mpr hwf
  cases h : find m k with
  | none =>
    rw [find_eq_none_iff] at h ⊢
    intro c
    exact h ((hp.map Prod.fst).mem_iff.mp c)
  | some v =>
    exact find_eq_some_of_mem m' hwf' k v (hp.mem_iff.mpr (mem_of_find_eq_some m k v h))

end UMap

theorem firstProposal_loadProposals_of_not_mem (r : UMap KernelMap) (op p : String)
    (h : op ∉ UMap.keys r) : firstProposal (loadProposals r) op p = none := by
  rw [firstProposal_eq_none]
  intro i hi
  unfold loadProposals mergeProposals at hi
  rw [List.mem_flatMap] at hi
  obtain ⟨e, he, hm⟩ := hi
  rw [List.mem_map] at hm
  obtain ⟨kv, _, hkv⟩ := hm
  simp only [Prod.mk.injEq] at hkv
  apply h
  unfold UMap.keys
  rw [← hkv.1]
  exact List.mem_map_of_mem Prod.fst he

/-- For a well-formed result set the first proposal for a key is its entry. -/
theorem firstProposal_loadProposals (r : UMap KernelMap) (hwf : UMap.WF r) (op p : String) :
    firstProposal (loadProposals r) op p = entry r op p := by
  induction r with
  | nil => simp [loadProposals, firstProposal, entry, UMap.find]
  | cons e rest ih =>
    obtain ⟨o, km⟩ := e
    have hl : loadProposals ((o, km) :: rest) = mergeProposals o km ++ loadProposals rest := by
      simp [loadProposals]
    unfold UMap.WF UMap.keys at hwf
    simp only [List.map_cons, List.nodup_cons] at hwf
    rw [hl, firstProposal_append, firstProposal_mergeProposals]
    by_cases h : op = o
    · subst h
      rw [firstProposal_loadProposals_of_not_mem rest op p hwf.1]
      simp [entry, UMap.find]
    · have h' : ¬ o = op := fun c => h c.symm
      rw [ih hwf.2]
      simp [entry, UMap.find, h, h']

/-! ## The code refines the specification's result set -/

theorem ResultSet.eq_of_forall (a b : ResultSet) (h1 : ∀ o, a.ops o = b.ops o)
    (h2 : ∀ o q, a.ids o q = b.ids o q) : a = b := by
  cases a with
  | mk ao ai =>
    cases b with
    | mk bo bi =>
      have e1 : ao = bo := funext h1
      have e2 : ai = bi := funext (fun o => funext (h2 o))
      rw [e1, e2]

theorem sameResults_iff_view (a b : UMap KernelMap) : SameResults a b ↔ view a = view b := by
  constructor
  · intro h
    exact ResultSet.eq_of_forall _ _ h.1 h.2
  · intro h
    have h1 : hasOp a = hasOp b := congrArg ResultSet.ops h
    have h2 : entry a = entry b := congrArg ResultSet.ids h
    exact ⟨fun o => congrFun h1 o, fun o q => congrFun (congrFun h2 o) q⟩

theorem spec_add_ids (v : ResultSet) (op p : String) (id : Int) (o q : String) :
    (spec_add v op p id).ids o q
      = if o = op ∧ q = p then (v.ids op p).or (some id) else v.ids o q := by
  unfold spec_add
  cases h : v.ids op p with
  | some w =>
    by_cases hk : o = op ∧ q = p
    · obtain ⟨rfl, rfl⟩ := hk; simp [h]
    · simp [hk]
  | none =>
    by_cases hk : o = op ∧ q = p <;> simp [hk]

theorem spec_add_ops (v : ResultSet) (op p : String) (id : Int) (hop : v.ops op = true)
    (o : String) : (spec_add v op p id).ops o = v.ops o := by
  unfold spec_add
  cases h : v.ids op p with
  | some w => rfl
  | none =>
    by_cases hk : o = op
    · subst hk; simp [hop]
    · simp [hk]

theorem spec_foldAdd (op : String) (m : KernelMap) (v : ResultSet) (hop : v.ops op = true) :
    (∀ o, (m.foldl (fun acc kv => spec_add acc op kv.1 kv.2) v).ops o = v.ops o) ∧
    (∀ o q, (m.foldl (fun acc kv => spec_add acc op kv.1 kv.2) v).ids o q
      = if o = op then (v.ids op q).or (UMap.find m q) else v.ids o q) := by
  induction m generalizing v with
  | nil =>
    refine ⟨fun o => rfl, fun o q => ?_⟩
    by_cases h : o = op
    · subst h; simp [UMap.find]
    · simp [h]
  | cons e rest ih =>
    obtain ⟨k, w⟩ := e
    simp only [List.foldl_cons]
    have hop' : (spec_add v op k w).ops op = true := by rw [spec_add_ops v op k w hop]; exact hop
    obtain ⟨i1, i2⟩ := ih (spec_add v op k w) hop'
    refine ⟨fun o => ?_, fun o q => ?_⟩
    · rw [i1, spec_add_ops v op k w hop]
    · rw [i2, spec_add_ids, spec_add_ids]
      by_cases h : o = op
      · subst h
        by_cases hk : q = k
        · subst hk
          cases hv : v.ids o q <;> simp [UMap.find]
        · have hk' : ¬ k = q := fun c => hk c.symm
          simp [UMap.find, hk, hk']
      · simp [h]

theorem view_Add (s : TuningResultsManager) (op p : String) (id : Int) :
    view (s.Add op p id).Dump = spec_add (view s.Dump) op p id := by
  apply ResultSet.eq_of_forall
  · intro o
    show hasOp (s.Add op p id).Dump o = _
    rw [hasOp_Add]
    unfold spec_add
    cases h : (view s.Dump).ids op p with
    | none => rfl
    | some w =>
      have he : entry s.Dump op p = some w := h
      have ho : hasOp s.Dump op = true := by
        unfold entry at he
        unfold hasOp
        cases hf : UMap.find s.Dump op with
        | none => simp [hf] at he
        | some km => rfl
      by_cases hk : o = op
      · subst hk; simp [ho, view]
      · simp [hk, view]
  · intro o q
    show entry (s.Add op p id).Dump o q = _
    rw [entry_Add, spec_add_ids]
    rfl

theorem view_MergeImpl (op : String) (m : KernelMap) (r : UMap KernelMap) :
    view (MergeImpl op m r) = spec_mergeInto (view r) op m := by
  have hop : (⟨fun o => decide (o = op) || (view r).ops o, (view r).ids⟩ : ResultSet).ops op
      = true := by simp
  obtain ⟨i1, i2⟩ := spec_foldAdd op m _ hop
  apply ResultSet.eq_of_forall
  · intro o
    show hasOp (MergeImpl op m r) o = _
    unfold spec_mergeInto
    rw [i1, hasOp_MergeImpl]
    rfl
  · intro o q
    show entry (MergeImpl op m r) o q = _
    unfold spec_mergeInto
    rw [i2, entry_MergeImpl]
    rfl

theorem view_foldl_MergeImpl (r : UMap KernelMap) (r0 : UMap KernelMap) :
    view (r.foldl (fun res okm => MergeImpl okm.1 okm.2 res) r0) = spec_loadBulk (view r0) r := by
  induction r generalizing r0 with
  | nil => rfl
  | cons e rest ih =>
    simp only [List.foldl_cons, spec_loadBulk]
    rw [ih, view_MergeImpl]
    rfl

theorem view_apply (s : TuningResultsManager) (c : Call) :
    view (c.apply s).Dump = spec_apply (view s.Dump) c := by
  cases c with
  | Add o q id => exact view_Add s o q id
  | Merge o m => exact view_MergeImpl o m s.results_
  | Load r => exact view_foldl_MergeImpl r s.results_
  | Clear =>
    apply ResultSet.eq_of_forall
    · intro o; rfl
    · intro o q; rfl

theorem view_run (cs : List Call) (s : TuningResultsManager) :
    view (run s cs).Dump = spec_fold (view s.Dump) cs := by
  induction cs generalizing s with
  | nil => rfl
  | cons c rest ih =>
    have hr : run s (c :: rest) = run (c.apply s) rest := rfl
    have hs : spec_fold (view s.Dump) (c :: rest) = spec_fold (spec_apply (view s.Dump) c) rest :=
      rfl
    rw [hr, hs, ih, view_apply]

theorem spec_foldEntries_ids (l : List (String × String × Int)) (v : ResultSet) (o q : String) :
    (spec_foldEntries v l).ids o q = (v.ids o q).or (firstProposal l o q) := by
  induction l generalizing v with
  | nil => simp [spec_foldEntries, firstProposal]
  | cons e rest ih =>
    obtain ⟨op, p, id⟩ := e
    have hs : spec_foldEntries v ((op, p, id) :: rest)
        = spec_foldEntries (spec_add v op p id) rest := rfl
    rw [hs, ih, spec_add_ids]
    by_cases hk : o = op ∧ q = p
    · obtain ⟨rfl, rfl⟩ := hk
      cases hv : v.ids o q <;> simp [firstProposal]
    · have hk' : ¬ (op = o ∧ p = q) := fun c => hk ⟨c.1.symm, c.2.symm⟩
      simp [firstProposal, hk, hk']

theorem Lookup2_eq_entry (s : TuningResultsManager) (op p : String) :
    s.Lookup2 op p = (entry s.Dump op p).getD (-1) := by
  unfold TuningResultsManager.Lookup2 entry TuningResultsManager.Dump
  cases hf : UMap.find s.results_ op with
  | none => rfl
  | some km =>
    cases hk : UMap.find km p <;> simp [hk]

theorem entry_nonneg_apply (s : TuningResultsManager) (c : Call)
    (hs : ∀ op p id, entry s.Dump op p = some id → 0 ≤ id)
    (hc : ∀ t ∈ c.proposals, 0 ≤ t.2.2) :
    ∀ op p id, entry (c.apply s).Dump op p = some id → 0 ≤ id := by
  intro op p id h
  by_cases hcl : c.isClear = false
  · rw [entry_apply s c hcl] at h
    cases he : entry s.Dump op p with
    | some w =>
      rw [he] at h
      simp only [Option.or_some] at h
      cases h
      exact hs op p _ he
    | none =>
      rw [he] at h
      simp only [Option.none_or] at h
      exact hc _ (firstProposal_mem _ _ _ _ h)
  · cases c with
    | Clear => simp [Call.apply, TuningResultsManager.Clear, TuningResultsManager.Dump, entry,
        UMap.find] at h
    | Add o q i => simp [Call.isClear] at hcl
    | Merge o m => simp [Call.isClear] at hcl
    | Load r => simp [Call.isClear] at hcl

theorem entry_nonneg_run (cs : List Call) (s : TuningResultsManager)
    (hs : ∀ op p id, entry s.Dump op p = some id → 0 ≤ id)
    (hc : ∀ c ∈ cs, ∀ t ∈ c.proposals, 0 ≤ t.2.2) :
    ∀ op p id, entry (run s cs).Dump op p = some id → 0 ≤ id := by
  induction cs generalizing s with
  | nil => exact hs
  | cons c rest ih =>
    have hr : run s (c :: rest) = run (c.apply s) rest := rfl
    rw [hr]
    exact ih (c.apply s)
      (entry_nonneg_apply s c hs (hc c (List.mem_cons_self _ _)))
      (fun c' hm => hc c' (List.mem_cons_of_mem _ hm))

/-! ## The claims on `TuningResultsManager` -/

/-- C1: `Add` equals its reference definition.  The result set after `Add(op, params, id)` is
the specification's `add` applied to the result set before.  When the store has no entry for
`(op, params)`, afterwards `(op, params)` holds `id`, every other entry is unchanged, the
operation keys are the old ones plus `op` and the map of every other operation is untouched.
When the store has an entry for `(op, params)`, with whatever id, the manager after `Add` is
identical to the manager before, so `Dump` is unchanged and the existing id is kept. -/
theorem C1_Add_reference (s : TuningResultsManager) (op params : String) (id : Int) :
    view (s.Add op params id).Dump = spec_add (view s.Dump) op params id ∧
    (entry s.Dump op params = none →
      (∀ op' p', entry (s.Add op params id).Dump op' p'
          = if op' = op ∧ p' = params then some id else entry s.Dump op' p') ∧
      (∀ op', hasOp (s.Add op params id).Dump op' = (decide (op' = op) || hasOp s.Dump op')) ∧
      (∀ op', op' ≠ op →
          UMap.find (s.Add op params id).Dump op' = UMap.find s.Dump op')) ∧
    (entry s.Dump op params ≠ none →
      s.Add op params id = s ∧ (s.Add op params id).Dump = s.Dump ∧
      entry (s.Add op params id).Dump op params = entry s.Dump op params) := by
  refine ⟨view_Add s op params id, ?_, ?_⟩
  · intro hnone
    refine ⟨fun op' p' => ?_, fun op' => hasOp_Add s op params id op', fun op' hne => ?_⟩
    · rw [entry_Add, hnone]
      simp
    · show UMap.find (s.Add op params id).results_ op' = _
      rw [find_Add]
      simp [hne, TuningResultsManager.Dump]
  · intro hsome
    have h := Add_eq_self s op params id hsome
    exact ⟨h, by rw [h], by rw [h]⟩

/-- C1, at a concrete store: adding a new pair inserts it, adding onto a recorded pair with a
different id leaves the manager as it was. -/
theorem C1_Add_reference_witness :
    (∀ op' p', entry ((TuningResultsManager.mk [("gemm", [("m1", 7)])]).Add "gemm" "m2" 3).Dump
        op' p' = if op' = "gemm" ∧ p' = "m2" then some 3
          else entry (TuningResultsManager.mk [("gemm", [("m1", 7)])]).Dump op' p') ∧
    (TuningResultsManager.mk [("gemm", [("m1", 7)])]).Add "gemm" "m1" 9
      = TuningResultsManager.mk [("gemm", [("m1", 7)])] :=
  ⟨((C1_Add_reference ⟨[("gemm", [("m1", 7)])]⟩ "gemm" "m2" 3).2.1 (by decide)).1,
   ((C1_Add_reference ⟨[("gemm", [("m1", 7)])]⟩ "gemm" "m1" 9).2.2 (by decide)).1⟩

/-- C2 as stated fails: on a store that records id 1 for `(op, p)`, `Add(op, p, 2)` is followed
by `Lookup(op, p) = 1`, not 2. -/
theorem C2_write_then_read_counterexample :
    ¬ ∀ (s : TuningResultsManager) (op params : String) (id : Int),
        (s.Add op params id).Lookup2 op params = id := by
  intro h
  have := h ⟨[("op", [("p", 1)])]⟩ "op" "p" 2
  revert this
  decide

/-- C2, amended: after `Add(op, params, id)` the two-argument `Lookup(op, params)` returns the
id that was already recorded for `(op, params)` when there was one, and `id` when there was
none. -/
theorem C2_write_then_read (s : TuningResultsManager) (op params : String) (id : Int) :
    (s.Add op params id).Lookup2 op params
      = match entry s.Dump op params with
        | some recorded => recorded
        | none => id := by
  rw [Lookup2_eq_entry, entry_Add]
  cases h : entry s.Dump op params <;> simp

/-- C3: first writer wins along every sequence of `Add`, `Merge` and `Load` calls: an entry
recorded before the sequence is recorded after it with the same kernel id, and the two-argument
`Lookup` still returns that id. -/
theorem C3_first_writer_wins (s : TuningResultsManager) (cs : List Call)
    (hcs : ∀ c ∈ cs, c.isClear = false) (op params : String) (id : Int)
    (h : entry s.Dump op params = some id) :
    entry (run s cs).Dump op params = some id ∧ (run s cs).Lookup2 op params = id := by
  have e : entry (run s cs).Dump op params = some id := by
    rw [entry_run cs s hcs, h]
    simp
  exact ⟨e, by rw [Lookup2_eq_entry, e]; rfl⟩

/-- C3, at a concrete store and a sequence that proposes other ids for the recorded pair through
each of the three operations. -/
theorem C3_first_writer_wins_witness :
    entry (run ⟨[("gemm", [("m1", 7)])]⟩
        [Call.Add "gemm" "m1" 1, Call.Merge "gemm" [("m1", 2), ("m2", 5)],
         Call.Load [("gemm", [("m1", 3)]), ("conv", [("c1", 4)])]]).Dump "gemm" "m1" = some 7 ∧
    (run ⟨[("gemm", [("m1", 7)])]⟩
        [Call.Add "gemm" "m1" 1, Call.Merge "gemm" [("m1", 2), ("m2", 5)],
         Call.Load [("gemm", [("m1", 3)]), ("conv", [("c1", 4)])]]).Lookup2 "gemm" "m1" = 7 :=
  C3_first_writer_wins ⟨[("gemm", [("m1", 7)])]⟩
    [Call.Add "gemm" "m1" 1, Call.Merge "gemm" [("m1", 2), ("m2", 5)],
     Call.Load [("gemm", [("m1", 3)]), ("conv", [("c1", 4)])]]
    (by decide) "gemm" "m1" 7 (by decide)

/-- C4: `Merge` is a left-biased union.  After `Merge(op, m)` the one-argument `Lookup(op)`
holds, for each params key, the store's id when the store has one and otherwise the id of `m`;
`op` is a key of `Dump`; the maps of all other operations are the ones from before; and two
iteration orders of the same map `m` give equal maps.  Merging `{p1:1, p2:2}` into the empty
store and then `{p2:99, p3:3}` yields `{p1:1, p2:2, p3:3}`. -/
theorem C4_Merge_left_biased_union (s : TuningResultsManager) (op : String) (m : KernelMap) :
    (∀ p, UMap.find ((s.Merge op m).Lookup op) p
        = (UMap.find (s.Lookup op) p).or (UMap.find m p)) ∧
    hasOp (s.Merge op m).Dump op = true ∧
    (∀ op', op' ≠ op → UMap.find (s.Merge op m).Dump op' = UMap.find s.Dump op') ∧
    (∀ m' : KernelMap, UMap.WF m → m'.Perm m →
        SameMap ((s.Merge op m').Lookup op) ((s.Merge op m).Lookup op)) ∧
    SameMap (((TuningResultsManager.empty.Merge op [("p1", 1), ("p2", 2)]).Merge op
        [("p2", 99), ("p3", 3)]).Lookup op) [("p1", 1), ("p2", 2), ("p3", 3)] := by
  have key : ∀ (t : TuningResultsManager) (n : KernelMap) (p : String),
      UMap.find ((t.Merge op n).Lookup op) p
        = (UMap.find (t.Lookup op) p).or (UMap.find n p) := by
    intro t n p
    rw [← entry_eq_find_Lookup, ← entry_eq_find_Lookup]
    show entry (MergeImpl op n t.results_) op p = _
    rw [entry_MergeImpl]
    simp [TuningResultsManager.Dump]
  refine ⟨key s m, ?_, ?_, ?_, ?_⟩
  · show hasOp (MergeImpl op m s.results_) op = true
    rw [hasOp_MergeImpl]
    simp
  · intro op' hne
    exact find_MergeImpl_of_ne op m s.results_ op' hne
  · intro m' hwf hp p
    rw [key s m', key s m, UMap.find_perm m m' hwf hp]
  · intro p
    rw [key, key]
    simp only [TuningResultsManager.empty, TuningResultsManager.Lookup, UMap.find]
    by_cases h1 : "p1" = p
    · subst h1; simp [UMap.find]
    · by_cases h2 : "p2" = p
      · subst h2; simp [UMap.find]
      · simp [UMap.find, h1, h2]

/-- C4, at a concrete store: the union is left-biased whichever way the merged map is
iterated. -/
theorem C4_Merge_left_biased_union_witness :
    SameMap (((TuningResultsManager.mk [("gemm", [("p2", 2)])]).Merge "gemm"
        [("p3", 3), ("p2", 99)]).Lookup "gemm")
      (((TuningResultsManager.mk [("gemm", [("p2", 2)])]).Merge "gemm"
        [("p2", 99), ("p3", 3)]).Lookup "gemm") ∧
    UMap.find ((TuningResultsManager.mk [("gemm", [("p2", 2)]), ("conv", [("c", 1)])]).Merge
        "gemm" [("p2", 99)]).Dump "conv"
      = UMap.find (TuningResultsManager.mk [("gemm", [("p2", 2)]), ("conv", [("c", 1)])]).Dump
        "conv" :=
  ⟨(C4_Merge_left_biased_union ⟨[("gemm", [("p2", 2)])]⟩ "gemm" [("p2", 99), ("p3", 3)]).2.2.2.1
      [("p3", 3), ("p2", 99)] (by decide) (List.Perm.swap _ _ _),
   (C4_Merge_left_biased_union ⟨[("gemm", [("p2", 2)]), ("conv", [("c", 1)])]⟩ "gemm"
      [("p2", 99)]).2.2.1 "conv" (by decide)⟩

/-- C5: `Load` is additive.  For a result set `r` (an unordered map, so with unique operation
keys) the store after `Load(r)` holds for each `(op, params)` the store's id when it had one,
otherwise the id of `r` when it has one, and nothing otherwise; its operation keys are those of
the store and of `r`; the map of an operation that `r` does not name is the one from before; and
applying `Merge(op, r[op])` for the operations of `r` in any order gives the same result set. -/
theorem C5_Load_additive (s : TuningResultsManager) (r : UMap KernelMap) (hr : UMap.WF r) :
    (∀ op p, entry (s.Load r).Dump op p = (entry s.Dump op p).or (entry r op p)) ∧
    (∀ op, hasOp (s.Load r).Dump op = (hasOp s.Dump op || hasOp r op)) ∧
    (∀ op, hasOp r op = false → UMap.find (s.Load r).Dump op = UMap.find s.Dump op) ∧
    (∀ r' : UMap KernelMap, r'.Perm r →
        SameResults (r'.foldl (fun t okm => t.Merge okm.1 okm.2) s).Dump (s.Load r).Dump) := by
  have hE : ∀ (x : UMap KernelMap), UMap.WF x → ∀ op p,
      entry (s.Load x).Dump op p = (entry s.Dump op p).or (entry x op p) := by
    intro x hx op p
    show entry (x.foldl (fun res okm => MergeImpl okm.1 okm.2 res) s.results_) op p = _
    rw [entry_foldl_MergeImpl, firstProposal_loadProposals x hx]
    rfl
  have hO : ∀ (x : UMap KernelMap) op,
      hasOp (s.Load x).Dump op = (hasOp s.Dump op || hasOp x op) := by
    intro x op
    show hasOp (x.foldl (fun res okm => MergeImpl okm.1 okm.2 res) s.results_) op = _
    rw [hasOp_foldl_MergeImpl]
    have : decide (op ∈ UMap.keys x) = hasOp x op := by
      unfold hasOp
      by_cases hm : op ∈ UMap.keys x
      · simp [hm, (UMap.find_isSome_iff_mem_keys x op).mpr hm]
      · have := (UMap.find_eq_none_iff x op).mpr hm
        simp [hm, this]
    rw [this]
    rfl
  have hM : ∀ (x : UMap KernelMap) (t : TuningResultsManager),
      x.foldl (fun t okm => t.Merge okm.1 okm.2) t = t.Load x := by
    intro x
    induction x with
    | nil => intro t; rfl
    | cons e rest ih => intro t; simp only [List.foldl_cons]; rw [ih]; rfl
  refine ⟨hE r hr, hO r, ?_, ?_⟩
  · intro op hop
    have hn : op ∉ UMap.keys r := by
      rw [← UMap.find_eq_none_iff]
      unfold hasOp at hop
      cases hf : UMap.find r op with
      | none => rfl
      | some km => simp [hf] at hop
    exact find_foldl_MergeImpl_of_not_mem r s.results_ op hn
  · intro r' hp
    have hr' : UMap.WF r' := (hp.map Prod.fst).nodup_iff.mpr hr
    rw [hM r' s]
    constructor
    · intro op
      rw [hO r', hO r]
      unfold hasOp
      rw [UMap.find_perm r r' hr hp]
    · intro op p
      rw [hE r' hr', hE r hr]
      unfold entry
      rw [UMap.find_perm r r' hr hp]

/-- C5, at a concrete store: a loaded set that names another operation and a recorded pair
keeps the recorded id and the untouched operation. -/
theorem C5_Load_additive_witness :
    (∀ op p, entry ((TuningResultsManager.mk [("gemm", [("m1", 7)]), ("conv", [("c", 1)])]).Load
        [("gemm", [("m1", 9), ("m2", 2)]), ("relu", [])]).Dump op p
      = (entry (TuningResultsManager.mk [("gemm", [("m1", 7)]), ("conv", [("c", 1)])]).Dump
          op p).or (entry [("gemm", [("m1", 9), ("m2", 2)]), ("relu", [])] op p)) ∧
    UMap.find ((TuningResultsManager.mk [("gemm", [("m1", 7)]), ("conv", [("c", 1)])]).Load
        [("gemm", [("m1", 9), ("m2", 2)]), ("relu", [])]).Dump "conv" = some [("c", 1)] :=
  ⟨(C5_Load_additive ⟨[("gemm", [("m1", 7)]), ("conv", [("c", 1)])]⟩
      [("gemm", [("m1", 9), ("m2", 2)]), ("relu", [])] (by decide)).1,
   (C5_Load_additive ⟨[("gemm", [("m1", 7)]), ("conv", [("c", 1)])]⟩
      [("gemm", [("m1", 9), ("m2", 2)]), ("relu", [])] (by decide)).2.2.1 "conv" (by decide)⟩

/-- C6: `Add` is idempotent: calling `Add(op, params, id)` twice in a row leaves the manager,
and so `Dump`, exactly as calling it once. -/
theorem C6_Add_idempotent (s : TuningResultsManager) (op params : String) (id : Int) :
    (s.Add op params id).Add op params id = s.Add op params id ∧
    ((s.Add op params id).Add op params id).Dump = (s.Add op params id).Dump := by
  have h : (s.Add op params id).Add op params id = s.Add op params id := by
    apply Add_eq_self
    rw [entry_Add]
    cases he : entry s.Dump op params <;> simp
  exact ⟨h, by rw [h]⟩

/-- C7: `Dump` fidelity and order independence.  For two sequences of `Add`, `Merge` and `Load`
calls that are permutations of each other and in which no two proposals give different ids to
the same `(op, params)`, `Dump` after the one equals `Dump` after the other as result sets; and
`Dump` is the fold of the sequence under the specification's first-writer-wins policy, whose
entries are the initial entries followed by each proposed entry whose key is not yet present. -/
theorem C7_Dump_fidelity (s : TuningResultsManager) (cs₁ cs₂ : List Call)
    (hperm : cs₁.Perm cs₂) (hcalls : ∀ c ∈ cs₁, c.isClear = false)
    (hconf : NoConflict (cs₁.flatMap Call.proposals)) :
    SameResults (run s cs₁).Dump (run s cs₂).Dump ∧
    view (run s cs₁).Dump = spec_fold (view s.Dump) cs₁ ∧
    view (run s cs₂).Dump = spec_fold (view s.Dump) cs₂ ∧
    (∀ op p, entry (run s cs₁).Dump op p
        = (spec_foldEntries (view s.Dump) (cs₁.flatMap Call.proposals)).ids op p) := by
  have hcalls₂ : ∀ c ∈ cs₂, c.isClear = false := fun c hc => hcalls c (hperm.mem_iff.mpr hc)
  refine ⟨⟨fun op => ?_, fun op p => ?_⟩, view_run cs₁ s, view_run cs₂ s, fun op p => ?_⟩
  · rw [hasOp_run cs₁ s hcalls, hasOp_run cs₂ s hcalls₂]
    have : (op ∈ cs₁.flatMap Call.ops) ↔ (op ∈ cs₂.flatMap Call.ops) :=
      (List.Perm.flatMap_right Call.ops hperm).mem_iff
    simp [this]
  · rw [entry_run cs₁ s hcalls, entry_run cs₂ s hcalls₂,
      firstProposal_perm _ _ (List.Perm.flatMap_right Call.proposals hperm) hconf]
  · rw [entry_run cs₁ s hcalls, spec_foldEntries_ids]
    rfl

/-- C7, at a concrete store and a sequence of an `Add`, a `Merge` and a `Load` that agree on
the one pair they share, against the same calls in another order. -/
theorem C7_Dump_fidelity_witness :
    SameResults
      (run ⟨[("gemm", [("m1", 7)])]⟩
        [Call.Add "gemm" "m2" 2, Call.Merge "conv" [("c1", 4)],
         Call.Load [("gemm", [("m2", 2), ("m3", 3)])]]).Dump
      (run ⟨[("gemm", [("m1", 7)])]⟩
        [Call.Merge "conv" [("c1", 4)], Call.Add "gemm" "m2" 2,
         Call.Load [("gemm", [("m2", 2), ("m3", 3)])]]).Dump :=
  (C7_Dump_fidelity ⟨[("gemm", [("m1", 7)])]⟩
    [Call.Add "gemm" "m2" 2, Call.Merge "conv" [("c1", 4)],
     Call.Load [("gemm", [("m2", 2), ("m3", 3)])]]
    [Call.Merge "conv" [("c1", 4)], Call.Add "gemm" "m2" 2,
     Call.Load [("gemm", [("m2", 2), ("m3", 3)])]]
    (List.Perm.swap _ _ _) (by decide)
    (by
      intro t ht t' ht' h1 h2
      simp [Call.proposals, mergeProposals, loadProposals] at ht ht'
      rcases ht with rfl | rfl | rfl | rfl <;> rcases ht' with rfl | rfl | rfl | rfl <;>
        first | rfl | (exfalso; revert h1 h2; decide))).1

/-- C8: the lookups are total and agree with `Dump`.  `Lookup(op)` is `Dump()[op]` when `op` is
a key of `Dump` and the empty map otherwise; `Lookup(op, params)` is the id at
`Dump()[op][params]` when that entry exists and `-1` otherwise.  In a manager built from the
empty one by `Add`, `Merge`, `Load` and `Clear` calls that only pass non-negative ids,
`Lookup(op, params)` returns `-1` exactly when no entry is recorded for `(op, params)`. -/
theorem C8_Lookup_agrees_with_Dump (s : TuningResultsManager) (op params : String) :
    (s.Lookup op = match UMap.find s.Dump op with
                   | some km => km
                   | none => []) ∧
    (s.Lookup2 op params = match entry s.Dump op params with
                           | some id => id
                           | none => -1) ∧
    (∀ cs : List Call, (∀ c ∈ cs, ∀ t ∈ c.proposals, 0 ≤ t.2.2) →
        s = run TuningResultsManager.empty cs →
        (s.Lookup2 op params = -1 ↔ entry s.Dump op params = none)) := by
  refine ⟨?_, ?_, ?_⟩
  · unfold TuningResultsManager.Lookup TuningResultsManager.Dump
    cases UMap.find s.results_ op <;> rfl
  · rw [Lookup2_eq_entry]
    cases entry s.Dump op params <;> rfl
  · intro cs hcs hs
    have hnn := entry_nonneg_run cs TuningResultsManager.empty
      (by intro o q i h; simp [TuningResultsManager.empty, TuningResultsManager.Dump, entry,
            UMap.find] at h) hcs
    rw [← hs] at hnn
    rw [Lookup2_eq_entry]
    cases he : entry s.Dump op params with
    | none => simp
    | some id =>
      have := hnn op params id he
      simp only [Option.getD_some]
      constructor
      · intro h; omega
      · intro h; cases h

/-- C8, at a manager built by three calls with non-negative ids: the sentinel is returned for
the pair that was never recorded. -/
theorem C8_Lookup_agrees_with_Dump_witness :
    ((run TuningResultsManager.empty
        [Call.Add "gemm" "m1" 0, Call.Clear, Call.Merge "gemm" [("m2", 5)]]).Lookup2 "gemm" "m1"
      = -1 ↔
     entry (run TuningResultsManager.empty
        [Call.Add "gemm" "m1" 0, Call.Clear, Call.Merge "gemm" [("m2", 5)]]).Dump "gemm" "m1"
      = none) :=
  (C8_Lookup_agrees_with_Dump
    (run TuningResultsManager.empty
      [Call.Add "gemm" "m1" 0, Call.Clear, Call.Merge "gemm" [("m2", 5)]]) "gemm" "m1").2.2
    [Call.Add "gemm" "m1" 0, Call.Clear, Call.Merge "gemm" [("m2", 5)]]
    (by decide) rfl

/-! ## Lemmas on the validator -/

theorem string_lt_antisymm (a b : String) (h1 : string_lt a b = false)
    (h2 : string_lt b a = false) : a = b := by
  simp only [string_lt, decide_eq_false_iff_not, not_lt] at h1 h2
  exact String.ext (le_antisymm h2 h1)

theorem set_intersection_nil_right (l : List String) : set_intersection l [] = [] := by
  cases l <;> simp [set_intersection, set_intersection.scan]

/-- The loop of `std::set_intersection` on two non-empty ranges. -/
theorem set_intersection_cons_cons (a b : String) (as bs : List String) :
    set_intersection (a :: as) (b :: bs) =
      if string_lt a b then set_intersection as (b :: bs)
      else if string_lt b a then set_intersection (a :: as) bs
      else a :: set_intersection as bs := by
  simp [set_intersection, set_intersection.scan]

theorem set_intersection_sublist (l₁ l₂ : List String) :
    (set_intersection l₁ l₂).Sublist l₁ := by
  induction l₁ generalizing l₂ with
  | nil => simp [set_intersection]
  | cons a as ih =>
    induction l₂ with
    | nil => simp [set_intersection_nil_right]
    | cons b bs ih2 =>
      rw [set_intersection_cons_cons]
      split_ifs
      · exact (ih (b :: bs)).cons a
      · exact ih2
      · exact (ih bs).cons₂ a

theorem set_intersection_subset_right (l₁ l₂ : List String) :
    ∀ x ∈ set_intersection l₁ l₂, x ∈ l₂ := by
  induction l₁ generalizing l₂ with
  | nil => simp [set_intersection]
  | cons a as ih =>
    induction l₂ with
    | nil => simp [set_intersection_nil_right]
    | cons b bs ih2 =>
      rw [set_intersection_cons_cons]
      split_ifs with h1 h2
      · exact ih (b :: bs)
      · intro x hx
        exact List.mem_cons_of_mem _ (ih2 x hx)
      · intro x hx
        rcases List.mem_cons.mp hx with rfl | hx'
        · have : x = b := string_lt_antisymm x b (by simpa using h1) (by simpa using h2)
          simp [this]
        · exact List.mem_cons_of_mem _ (ih bs x hx')

/-- When `CheckKeysMatching` passes, the registered keys and the provided keys are the same
set, whatever the iteration orders were. -/
theorem keys_eq_of_CheckKeysMatching (h : HashOrder) (cw_funcs : CheckWriteFuncs)
    (to_check : UMap String) (hm : CheckKeysMatching h cw_funcs to_check = true) :
    ∀ k, k ∈ UMap.keys cw_funcs ↔ k ∈ UMap.keys to_check := by
  have hR := h.perm _ (List.nodup_dedup (UMap.keys cw_funcs))
  have hP := h.perm _ (List.nodup_dedup (UMap.keys to_check))
  have hRn : (h.order (UMap.keys cw_funcs).dedup).Nodup :=
    hR.nodup_iff.mpr (List.nodup_dedup _)
  have hPn : (h.order (UMap.keys to_check).dedup).Nodup :=
    hP.nodup_iff.mpr (List.nodup_dedup _)
  have hsub := set_intersection_sublist (h.order (UMap.keys cw_funcs).dedup)
    (h.order (UMap.keys to_check).dedup)
  have hIn := hsub.nodup hRn
  have hI := h.perm _ (List.nodup_dedup
    (set_intersection (h.order (UMap.keys cw_funcs).dedup) (h.order (UMap.keys to_check).dedup)))
  have hlen : (h.order (set_intersection (h.order (UMap.keys cw_funcs).dedup)
      (h.order (UMap.keys to_check).dedup)).dedup).length
      = (set_intersection (h.order (UMap.keys cw_funcs).dedup)
          (h.order (UMap.keys to_check).dedup)).length := by
    rw [hI.length_eq, hIn.dedup]
  unfold CheckKeysMatching at hm
  simp only [hlen] at hm
  have hl1 : (set_intersection (h.order (UMap.keys cw_funcs).dedup)
      (h.order (UMap.keys to_check).dedup)).length
      = (h.order (UMap.keys cw_funcs).dedup).length := by
    by_contra hc
    simp [hc] at hm
  have hl2 : (set_intersection (h.order (UMap.keys cw_funcs).dedup)
      (h.order (UMap.keys to_check).dedup)).length
      = (h.order (UMap.keys to_check).dedup).length := by
    by_contra hc
    simp [hc] at hm
  have hIR := hsub.eq_of_length hl1
  have hIP : (set_intersection (h.order (UMap.keys cw_funcs).dedup)
      (h.order (UMap.keys to_check).dedup)).Perm (h.order (UMap.keys to_check).dedup) :=
    (List.subperm_of_subset hIn (set_intersection_subset_right _ _)).perm_of_length_le
      (le_of_eq hl2.symm)
  rw [hIR] at hIP
  intro k
  rw [← List.mem_dedup (a := k) (l := UMap.keys cw_funcs),
    ← List.mem_dedup (a := k) (l := UMap.keys to_check), ← hR.mem_iff, ← hP.mem_iff]
  exact hIP.mem_iff

/-- When `CheckMandatoryKeys` passes, every mandatory key is provided. -/
theorem provided_of_CheckMandatoryKeys (cw_funcs : CheckWriteFuncs) (to_check : UMap String)
    (hm : CheckMandatoryKeys cw_funcs to_check = true) :
    ∀ k ∈ mandatory_keys, k ∈ UMap.keys to_check := by
  intro k hk
  rw [← UMap.find_isSome_iff_mem_keys]
  simp only [CheckMandatoryKeys, mandatory_keys, List.foldl_cons, List.foldl_nil] at hm
  simp only [mandatory_keys, List.mem_cons, List.mem_singleton, List.not_mem_nil, or_false] at hk
  rcases hk with rfl | rfl | rfl
  · cases h1 : UMap.find to_check "ORT_VERSION" with
    | some v => rfl
    | none => simp [h1] at hm
  · cases h1 : UMap.find to_check "ORT_GIT_COMMIT" with
    | some v => rfl
    | none => simp [h1] at hm
  · cases h1 : UMap.find to_check "ORT_BUILD_CONFIG" with
    | some v => rfl
    | none => simp [h1] at hm

/-! ## The claims on `TuningResultsValidator` -/

/-- C9: exact key-set enforcement, rejection direction.  For every validator registry, every
provided snapshot and every iteration order of the hash containers: when the snapshot's key set
differs from the registered key set, or a mandatory key is missing from the snapshot,
`CheckAll` returns its key-set error and has invoked no check function. -/
theorem C9_CheckAll_rejects_key_mismatch (h : HashOrder) (validators_ : CheckWriteFuncs)
    (to_check : UMap String)
    (hbad : (¬ ∀ k, k ∈ UMap.keys validators_ ↔ k ∈ UMap.keys to_check) ∨
      (∃ k ∈ mandatory_keys, k ∉ UMap.keys to_check)) :
    CheckAll h validators_ to_check = ([], .returned (.error
      "An error occurs during the loading of tuning results. Check logs for more details.")) := by
  unfold CheckAll
  by_cases hk : CheckKeysMatching h validators_ to_check = true
  · by_cases hmk : CheckMandatoryKeys validators_ to_check = true
    · exfalso
      rcases hbad with hb | ⟨k, hk1, hk2⟩
      · exact hb (keys_eq_of_CheckKeysMatching h validators_ to_check hk)
      · exact hk2 (provided_of_CheckMandatoryKeys validators_ to_check hmk k hk1)
    · simp [hmk]
  · simp [hk]

/-- C9, on the specification's one-key validator: a snapshot with the unregistered key `EXTRA`
and the empty snapshot are both rejected before any check runs. -/
theorem C9_CheckAll_rejects_key_mismatch_witness :
    CheckAll HashOrder.insertion
        [("VERSION", (fun v => if v = "1.0" then Status.OK else Status.error "mismatch",
          fun _ => "1.0"))]
        [("VERSION", "1.0"), ("EXTRA", "x")]
      = ([], .returned (.error
        "An error occurs during the loading of tuning results. Check logs for more details.")) ∧
    CheckAll HashOrder.insertion
        [("VERSION", (fun v => if v = "1.0" then Status.OK else Status.error "mismatch",
          fun _ => "1.0"))]
        []
      = ([], .returned (.error
        "An error occurs during the loading of tuning results. Check logs for more details.")) :=
  ⟨C9_CheckAll_rejects_key_mismatch HashOrder.insertion _ _
      (Or.inl (fun hall => absurd ((hall "EXTRA").mpr (by decide)) (by decide))),
   C9_CheckAll_rejects_key_mismatch HashOrder.insertion _ _
      (Or.inr ⟨"ORT_VERSION", by decide, by decide⟩)⟩

/-- C10 fails on the code.  The base validator (built for version `1.15.0`) registers
`ORT_VERSION`, `ORT_GIT_COMMIT`, `ORT_BUILD_CONFIG`.  A snapshot with exactly these three keys,
each value accepted by its check function, is rejected by `CheckAll` when its container
enumerates the keys in the opposite order: `std::set_intersection` over the two unsorted
iteration orders finds one common key instead of three, and `CheckKeysMatching` returns false
although `CheckMandatoryKeys` passes, with the unordered sets enumerating in insertion order as
well as last inserted first.  The same snapshot enumerated in the registry's order is
accepted. -/
theorem C10_CheckAll_rejects_equal_key_sets :
    (TuningResultsValidator.ctor "1.15.0" WriteOrtBuildConfig).map UMap.keys
      = some ["ORT_VERSION", "ORT_GIT_COMMIT", "ORT_BUILD_CONFIG"] ∧
    (CheckOrtVersion "1.15.0" "1.15.0" = .OK ∧ CheckOrtGitCommit "" = .OK ∧
      CheckOrtBuildConfig WriteOrtBuildConfig "" = .OK) ∧
    set_intersection ["ORT_VERSION", "ORT_GIT_COMMIT", "ORT_BUILD_CONFIG"]
      ["ORT_BUILD_CONFIG", "ORT_GIT_COMMIT", "ORT_VERSION"] = ["ORT_VERSION"] ∧
    (TuningResultsValidator.ctor "1.15.0" WriteOrtBuildConfig).map
        (fun v => (CheckMandatoryKeys v
            [("ORT_BUILD_CONFIG", ""), ("ORT_GIT_COMMIT", ""), ("ORT_VERSION", "1.15.0")],
          CheckKeysMatching HashOrder.insertion v
            [("ORT_BUILD_CONFIG", ""), ("ORT_GIT_COMMIT", ""), ("ORT_VERSION", "1.15.0")]))
      = some (true, false) ∧
    (TuningResultsValidator.ctor "1.15.0" WriteOrtBuildConfig).map
        (fun v => CheckKeysMatching HashOrder.reversed v
          [("ORT_BUILD_CONFIG", ""), ("ORT_GIT_COMMIT", ""), ("ORT_VERSION", "1.15.0")])
      = some false ∧
    (TuningResultsValidator.ctor "1.15.0" WriteOrtBuildConfig).map
        (fun v => CheckAll HashOrder.insertion v
          [("ORT_BUILD_CONFIG", ""), ("ORT_GIT_COMMIT", ""), ("ORT_VERSION", "1.15.0")])
      = some ([], .returned (.error
        "An error occurs during the loading of tuning results. Check logs for more details.")) ∧
    (TuningResultsValidator.ctor "1.15.0" WriteOrtBuildConfig).map
        (fun v => CheckAll HashOrder.insertion v
          [("ORT_VERSION", "1.15.0"), ("ORT_GIT_COMMIT", ""), ("ORT_BUILD_CONFIG", "")])
      = some ([("ORT_VERSION", "1.15.0"), ("ORT_GIT_COMMIT", ""), ("ORT_BUILD_CONFIG", "")],
          .returned .OK) := by
  decide

/-! ## The per-key loop of `CheckAll` -/

/-- The key phase of `CheckAll` passed: the loop is what `CheckAll` returns. -/
theorem CheckAll_eq_checkLoop (h : HashOrder) (validators_ : CheckWriteFuncs)
    (to_check : UMap String) (hmk : CheckMandatoryKeys validators_ to_check = true)
    (hkm : CheckKeysMatching h validators_ to_check = true) :
    CheckAll h validators_ to_check = checkLoop validators_ to_check := by
  simp [CheckAll, hmk, hkm]

/-- The key phase of `CheckAll` failed: the key-set error is returned and no check ran. -/
theorem CheckAll_of_key_phase_failed (h : HashOrder) (validators_ : CheckWriteFuncs)
    (to_check : UMap String)
    (hf : ¬ (CheckMandatoryKeys validators_ to_check = true ∧
      CheckKeysMatching h validators_ to_check = true)) :
    CheckAll h validators_ to_check = ([], .returned (.error
      "An error occurs during the loading of tuning results. Check logs for more details.")) := by
  unfold CheckAll
  by_cases hmk : CheckMandatoryKeys validators_ to_check = true
  · by_cases hkm : CheckKeysMatching h validators_ to_check = true
    · exact absurd ⟨hmk, hkm⟩ hf
    · simp [hkm]
  · simp [hmk]

/-- After a passed key phase every key of the snapshot has a registered pair. -/
theorem registered_of_key_phase (h : HashOrder) (validators_ : CheckWriteFuncs)
    (to_check : UMap String) (hkm : CheckKeysMatching h validators_ to_check = true) :
    ∀ kv ∈ to_check, (UMap.find validators_ kv.1).isSome = true := by
  intro kv hkv
  rw [UMap.find_isSome_iff_mem_keys]
  rw [keys_eq_of_CheckKeysMatching h validators_ to_check hkm]
  exact List.mem_map_of_mem Prod.fst hkv

/-- What the loop does when every key it meets is registered: either every check accepts and
the loop returns OK after invoking all of them, or it stops at the first pair whose check
rejects and returns that check's error. -/
theorem checkLoop_spec (validators_ : CheckWriteFuncs) (to_check : UMap String)
    (hreg : ∀ kv ∈ to_check, (UMap.find validators_ kv.1).isSome = true) :
    ((∀ kv ∈ to_check, ∃ cf wf, UMap.find validators_ kv.1 = some (cf, wf) ∧ cf kv.2 = .OK) ∧
      checkLoop validators_ to_check = (to_check, .returned .OK)) ∨
    (∃ pre k val post cf wf msg, to_check = pre ++ (k, val) :: post ∧
      (∀ kv ∈ pre, ∃ cf' wf', UMap.find validators_ kv.1 = some (cf', wf') ∧ cf' kv.2 = .OK) ∧
      UMap.find validators_ k = some (cf, wf) ∧ cf val = .error msg ∧
      checkLoop validators_ to_check = (pre ++ [(k, val)], .returned (.error msg))) := by
  induction to_check with
  | nil =>
    left
    exact ⟨fun kv hkv => absurd hkv (List.not_mem_nil _), rfl⟩
  | cons e rest ih =>
    obtain ⟨key, value⟩ := e
    have hreg' : ∀ kv ∈ rest, (UMap.find validators_ kv.1).isSome = true :=
      fun kv hkv => hreg kv (List.mem_cons_of_mem _ hkv)
    have hkey := hreg (key, value) (List.mem_cons_self _ _)
    cases hf : UMap.find validators_ key with
    | none => simp [hf] at hkey
    | some cw =>
      obtain ⟨checker, writer⟩ := cw
      cases hc : checker value with
      | error msg =>
        right
        refine ⟨[], key, value, rest, checker, writer, msg, rfl, ?_, hf, hc, ?_⟩
        · intro kv hkv
          exact absurd hkv (List.not_mem_nil _)
        · simp [checkLoop, hf, hc]
      | OK =>
        have hstep : checkLoop validators_ ((key, value) :: rest)
            = ((key, value) :: (checkLoop validators_ rest).1,
                (checkLoop validators_ rest).2) := by
          simp [checkLoop, hf, hc]
        rcases ih hreg' with ⟨hall, hres⟩ | ⟨pre, k, val, post, cf, wf, msg, h1, h2, h3, h4, h5⟩
        · left
          refine ⟨?_, ?_⟩
          · intro kv hkv
            rcases List.mem_cons.mp hkv with rfl | hin
            · exact ⟨checker, writer, hf, hc⟩
            · exact hall kv hin
          · rw [hstep, hres]
        · right
          refine ⟨(key, value) :: pre, k, val, post, cf, wf, msg, ?_, ?_, h3, h4, ?_⟩
          · rw [h1]; rfl
          · intro kv hkv
            rcases List.mem_cons.mp hkv with rfl | hin
            · exact ⟨checker, writer, hf, hc⟩
            · exact h2 kv hin
          · rw [hstep, h5]; rfl

/-! ## The claims on the checks of `TuningResultsValidator` -/

/-- C11: per-key check failure.  For a validator registry and a snapshot that pass the key-set
phase (under any iteration order of the hash sets): if some pair of the snapshot is rejected by
the check registered under its key, `CheckAll` returns the error of the first such pair in the
iteration order of the snapshot, having invoked the checks of the pairs before it (all
accepted) and of that pair, and no other; and if `CheckAll` returns OK, the check of every pair
of the snapshot accepted, so every registered check accepted the value provided under its
key. -/
theorem C11_CheckAll_returns_first_check_error (h : HashOrder) (validators_ : CheckWriteFuncs)
    (to_check : UMap String) (hmk : CheckMandatoryKeys validators_ to_check = true)
    (hkm : CheckKeysMatching h validators_ to_check = true) :
    ((∃ k val cf wf msg, (k, val) ∈ to_check ∧ UMap.find validators_ k = some (cf, wf) ∧
        cf val = .error msg) →
      ∃ pre k val post cf wf msg, to_check = pre ++ (k, val) :: post ∧
        (∀ kv ∈ pre, ∃ cf' wf', UMap.find validators_ kv.1 = some (cf', wf') ∧ cf' kv.2 = .OK) ∧
        UMap.find validators_ k = some (cf, wf) ∧ cf val = .error msg ∧
        CheckAll h validators_ to_check = (pre ++ [(k, val)], .returned (.error msg))) ∧
    ((CheckAll h validators_ to_check).2 = .returned .OK →
      (∀ kv ∈ to_check, ∃ cf wf, UMap.find validators_ kv.1 = some (cf, wf) ∧ cf kv.2 = .OK) ∧
      (∀ k cf wf, UMap.find validators_ k = some (cf, wf) →
        ∃ val, UMap.find to_check k = some val ∧ cf val = .OK)) := by
  have hreg := registered_of_key_phase h validators_ to_check hkm
  have hCA := CheckAll_eq_checkLoop h validators_ to_check hmk hkm
  have hspec := checkLoop_spec validators_ to_check hreg
  constructor
  · rintro ⟨k, val, cf, wf, msg, hmem, hfind, hrej⟩
    rcases hspec with ⟨hall, _⟩ | hfirst
    · exfalso
      obtain ⟨cf', wf', hf', hok⟩ := hall (k, val) hmem
      rw [hfind] at hf'
      cases hf'
      rw [hrej] at hok
      cases hok
    · obtain ⟨pre, k', val', post, cf', wf', msg', h1, h2, h3, h4, h5⟩ := hfirst
      exact ⟨pre, k', val', post, cf', wf', msg', h1, h2, h3, h4, by rw [hCA, h5]⟩
  · intro hok
    have hall : ∀ kv ∈ to_check,
        ∃ cf wf, UMap.find validators_ kv.1 = some (cf, wf) ∧ cf kv.2 = .OK := by
      rcases hspec with ⟨hall, _⟩ | ⟨pre, k, val, post, cf, wf, msg, _, _, _, _, h5⟩
      · exact hall
      · rw [hCA, h5] at hok
        cases hok
    refine ⟨hall, ?_⟩
    intro k cf wf hfind
    have hk : k ∈ UMap.keys to_check := by
      rw [← keys_eq_of_CheckKeysMatching h validators_ to_check hkm, ← UMap.find_isSome_iff_mem_keys,
        hfind]
      rfl
    rw [← UMap.find_isSome_iff_mem_keys] at hk
    cases hv : UMap.find to_check k with
    | none => simp [hv] at hk
    | some val =>
      obtain ⟨cf', wf', hf', hok'⟩ := hall (k, val) (UMap.mem_of_find_eq_some to_check k val hv)
      rw [hfind] at hf'
      cases hf'
      exact ⟨val, rfl, hok'⟩

/-- C11, on the base registry for version `1.15.0` and a snapshot whose version is `0.9`: the
key phase passes and `CheckAll` returns the error of the version check. -/
theorem C11_CheckAll_returns_first_check_error_witness :
    ∃ pre k val post cf wf msg,
      [("ORT_GIT_COMMIT", ""), ("ORT_VERSION", "0.9"), ("ORT_BUILD_CONFIG", "")]
        = pre ++ (k, val) :: post ∧
      (∀ kv ∈ pre, ∃ cf' wf', UMap.find
        [("ORT_GIT_COMMIT", (CheckOrtGitCommit, WriteOrtGitCommit)),
         ("ORT_VERSION", (CheckOrtVersion "1.15.0", WriteOrtVersion "1.15.0")),
         ("ORT_BUILD_CONFIG", (CheckOrtBuildConfig WriteOrtBuildConfig, WriteOrtBuildConfig))]
        kv.1 = some (cf', wf') ∧ cf' kv.2 = .OK) ∧
      UMap.find
        [("ORT_GIT_COMMIT", (CheckOrtGitCommit, WriteOrtGitCommit)),
         ("ORT_VERSION", (CheckOrtVersion "1.15.0", WriteOrtVersion "1.15.0")),
         ("ORT_BUILD_CONFIG", (CheckOrtBuildConfig WriteOrtBuildConfig, WriteOrtBuildConfig))]
        k = some (cf, wf) ∧ cf val = .error msg ∧
      CheckAll HashOrder.insertion
        [("ORT_GIT_COMMIT", (CheckOrtGitCommit, WriteOrtGitCommit)),
         ("ORT_VERSION", (CheckOrtVersion "1.15.0", WriteOrtVersion "1.15.0")),
         ("ORT_BUILD_CONFIG", (CheckOrtBuildConfig WriteOrtBuildConfig, WriteOrtBuildConfig))]
        [("ORT_GIT_COMMIT", ""), ("ORT_VERSION", "0.9"), ("ORT_BUILD_CONFIG", "")]
        = (pre ++ [(k, val)], .returned (.error msg)) :=
  (C11_CheckAll_returns_first_check_error HashOrder.insertion
    [("ORT_GIT_COMMIT", (CheckOrtGitCommit, WriteOrtGitCommit)),
     ("ORT_VERSION", (CheckOrtVersion "1.15.0", WriteOrtVersion "1.15.0")),
     ("ORT_BUILD_CONFIG", (CheckOrtBuildConfig WriteOrtBuildConfig, WriteOrtBuildConfig))]
    [("ORT_GIT_COMMIT", ""), ("ORT_VERSION", "0.9"), ("ORT_BUILD_CONFIG", "")]
    (by decide) (by decide)).1
    ⟨"ORT_VERSION", "0.9", CheckOrtVersion "1.15.0", WriteOrtVersion "1.15.0",
      "onnxruntime version mismatch", by decide, rfl, by decide⟩

/-- C19: the `ORT_ENFORCE` in the loop of `CheckAll` never fires.  For every registry, every
snapshot and every iteration order of the hash sets, `CheckAll` returns a `Status`; and when
`CheckMandatoryKeys` and `CheckKeysMatching` both return true, every key of the snapshot has a
registered pair, so each lookup in the loop succeeds. -/
theorem C19_CheckAll_never_aborts (h : HashOrder) (validators_ : CheckWriteFuncs)
    (to_check : UMap String) :
    (CheckAll h validators_ to_check).2 ≠ .enforceFailed ∧
    (∃ st, (CheckAll h validators_ to_check).2 = .returned st) ∧
    (CheckMandatoryKeys validators_ to_check = true →
      CheckKeysMatching h validators_ to_check = true →
      ∀ kv ∈ to_check, ∃ cf wf, UMap.find validators_ kv.1 = some (cf, wf)) := by
  have hret : ∃ st, (CheckAll h validators_ to_check).2 = .returned st := by
    by_cases hp : CheckMandatoryKeys validators_ to_check = true ∧
        CheckKeysMatching h validators_ to_check = true
    · rw [CheckAll_eq_checkLoop h validators_ to_check hp.1 hp.2]
      rcases checkLoop_spec validators_ to_check
          (registered_of_key_phase h validators_ to_check hp.2) with
        ⟨_, hres⟩ | ⟨pre, k, val, post, cf, wf, msg, _, _, _, _, h5⟩
      · exact ⟨.OK, by rw [hres]⟩
      · exact ⟨.error msg, by rw [h5]⟩
    · rw [CheckAll_of_key_phase_failed h validators_ to_check hp]
      exact ⟨_, rfl⟩
  refine ⟨?_, hret, ?_⟩
  · obtain ⟨st, hst⟩ := hret
    rw [hst]
    intro hc
    cases hc
  · intro _ hkm kv hkv
    have := registered_of_key_phase h validators_ to_check hkm kv hkv
    cases hf : UMap.find validators_ kv.1 with
    | none => simp [hf] at this
    | some cw => exact ⟨cw.1, cw.2, rfl⟩

/-- C19, on a snapshot with an unregistered key and on one that passes the key phase: a
`Status` is returned in both cases. -/
theorem C19_CheckAll_never_aborts_witness :
    (CheckAll HashOrder.insertion
        [("ORT_GIT_COMMIT", (CheckOrtGitCommit, WriteOrtGitCommit)),
         ("ORT_VERSION", (CheckOrtVersion "1.15.0", WriteOrtVersion "1.15.0")),
         ("ORT_BUILD_CONFIG", (CheckOrtBuildConfig WriteOrtBuildConfig, WriteOrtBuildConfig))]
        [("ORT_GIT_COMMIT", ""), ("EXTRA", "x")]).2 ≠ .enforceFailed ∧
    (∀ kv ∈ [("ORT_GIT_COMMIT", ""), ("ORT_VERSION", "0.9"), ("ORT_BUILD_CONFIG", "")],
      ∃ cf wf, UMap.find
        [("ORT_GIT_COMMIT", (CheckOrtGitCommit, WriteOrtGitCommit)),
         ("ORT_VERSION", (CheckOrtVersion "1.15.0", WriteOrtVersion "1.15.0")),
         ("ORT_BUILD_CONFIG", (CheckOrtBuildConfig WriteOrtBuildConfig, WriteOrtBuildConfig))]
        kv.1 = some (cf, wf)) :=
  ⟨(C19_CheckAll_never_aborts HashOrder.insertion _ [("ORT_GIT_COMMIT", ""), ("EXTRA", "x")]).1,
   (C19_CheckAll_never_aborts HashOrder.insertion
      [("ORT_GIT_COMMIT", (CheckOrtGitCommit, WriteOrtGitCommit)),
       ("ORT_VERSION", (CheckOrtVersion "1.15.0", WriteOrtVersion "1.15.0")),
       ("ORT_BUILD_CONFIG", (CheckOrtBuildConfig WriteOrtBuildConfig, WriteOrtBuildConfig))]
      [("ORT_GIT_COMMIT", ""), ("ORT_VERSION", "0.9"), ("ORT_BUILD_CONFIG", "")]).2.2
      (by decide) (by decide)⟩

/-! ## Lemmas on registration and `WriteAll` -/

theorem keys_append_singleton {V : Type} (m : UMap V) (k : String) (v : V) :
    UMap.keys (m ++ [(k, v)]) = UMap.keys m ++ [k] := by
  simp [UMap.keys]

theorem keys_modify {V : Type} (m : UMap V) (k : String) (f : V → V) :
    UMap.keys (UMap.modify m k f) = UMap.keys m := by
  induction m with
  | nil => rfl
  | cons e rest ih =>
    obtain ⟨k0, v⟩ := e
    unfold UMap.keys at ih ⊢
    by_cases hk : k0 = k
    · simp [UMap.modify, hk]
    · simp [UMap.modify, hk, ih]

theorem WF_assign {V : Type} (m : UMap V) (k : String) (v : V) (hwf : UMap.WF m) :
    UMap.WF (UMap.assign m k v) := by
  unfold UMap.assign
  cases hf : UMap.find m k with
  | some w =>
    show (UMap.keys (UMap.modify m k (fun _ => v))).Nodup
    rw [keys_modify]
    exact hwf
  | none =>
    show (UMap.keys (m ++ [(k, v)])).Nodup
    rw [keys_append_singleton]
    have hk : k ∉ UMap.keys m := (UMap.find_eq_none_iff m k).mp hf
    exact List.Nodup.append hwf (List.nodup_singleton k)
      (by
        intro x hx hx'
        rw [List.mem_singleton] at hx'
        subst hx'
        exact hk hx)

theorem find_map_snd {V W : Type} (m : UMap V) (g : V → W) (k : String) :
    UMap.find (m.map (fun kv => (kv.1, g kv.2))) k = (UMap.find m k).map g := by
  induction m with
  | nil => rfl
  | cons e rest ih =>
    obtain ⟨k0, v⟩ := e
    by_cases hk : k0 = k
    · simp [UMap.find, hk]
    · simpa [UMap.find, hk] using ih

theorem foldl_assign_eq_append (validators_ : CheckWriteFuncs) (ret : UMap String)
    (hwf : UMap.WF validators_) (hdis : ∀ k ∈ UMap.keys validators_, k ∉ UMap.keys ret) :
    validators_.foldl (fun ret kw => UMap.assign ret kw.1 (kw.2.2 ())) ret
      = ret ++ validators_.map (fun kw => (kw.1, kw.2.2 ())) := by
  induction validators_ generalizing ret with
  | nil => simp
  | cons e rest ih =>
    obtain ⟨k0, cw⟩ := e
    unfold UMap.WF UMap.keys at hwf
    simp only [List.map_cons, List.nodup_cons] at hwf
    have hk0 : k0 ∉ UMap.keys ret := hdis k0 (by simp [UMap.keys])
    have hassign : UMap.assign ret k0 (cw.2 ()) = ret ++ [(k0, cw.2 ())] := by
      unfold UMap.assign
      rw [(UMap.find_eq_none_iff ret k0).mpr hk0]
    simp only [List.foldl_cons, List.map_cons]
    rw [hassign, ih (ret ++ [(k0, cw.2 ())]) hwf.2]
    · simp
    · intro k hk
      rw [keys_append_singleton]
      intro hmem
      rcases List.mem_append.mp hmem with h1 | h2
      · exact hdis k (by
          unfold UMap.keys at hk ⊢
          exact List.mem_cons_of_mem _ hk) h1
      · rw [List.mem_singleton] at h2
        subst h2
        exact hwf.1 hk

/-- On a registry with unique keys `WriteAll` yields one pair per registered pair, in the
iteration order of the registry. -/
theorem WriteAll_eq_map (validators_ : CheckWriteFuncs) (hwf : UMap.WF validators_) :
    WriteAll validators_ = validators_.map (fun kw => (kw.1, kw.2.2 ())) := by
  unfold WriteAll
  rw [foldl_assign_eq_append validators_ [] hwf (fun k _ h => by simp [UMap.keys] at h)]
  simp

theorem keys_WriteAll (validators_ : CheckWriteFuncs) (hwf : UMap.WF validators_) :
    UMap.keys (WriteAll validators_) = UMap.keys validators_ := by
  rw [WriteAll_eq_map validators_ hwf]
  simp [UMap.keys]

theorem CheckMandatoryKeys_eq_true_iff (check_write_funcs : CheckWriteFuncs)
    (to_check : UMap String) :
    CheckMandatoryKeys check_write_funcs to_check = true ↔
      (∀ k ∈ mandatory_keys, k ∈ UMap.keys check_write_funcs) ∧
      (∀ k ∈ mandatory_keys, k ∈ UMap.keys to_check) := by
  simp only [CheckMandatoryKeys, mandatory_keys, List.foldl_cons, List.foldl_nil, List.mem_cons,
    List.mem_singleton, List.not_mem_nil, or_false, forall_eq_or_imp, forall_eq,
    ← UMap.find_isSome_iff_mem_keys]
  cases UMap.find check_write_funcs "ORT_VERSION" <;>
    cases UMap.find check_write_funcs "ORT_GIT_COMMIT" <;>
    cases UMap.find check_write_funcs "ORT_BUILD_CONFIG" <;>
    cases UMap.find to_check "ORT_VERSION" <;>
    cases UMap.find to_check "ORT_GIT_COMMIT" <;>
    cases UMap.find to_check "ORT_BUILD_CONFIG" <;> simp

/-! ## The claims on registration and `WriteAll` -/

/-- C14: `RegisterValidator` fails exactly on a duplicate key.  The `ORT_ENFORCE` throws if and
only if the key is already registered, and then the registry is left as it was; for a new key
the call succeeds, the registered keys are the old ones plus the key, the key maps to
`(cf, wf)`, and every pair registered before is unchanged. -/
theorem C14_RegisterValidator_duplicate_key (validators_ : CheckWriteFuncs) (key : String)
    (cf : CheckFunc) (wf : WriteFunc) :
    (RegisterValidator validators_ key cf wf = none ↔ key ∈ UMap.keys validators_) ∧
    (key ∈ UMap.keys validators_ → RegisterValidator.after validators_ key cf wf = validators_) ∧
    (key ∉ UMap.keys validators_ →
      ∃ v', RegisterValidator validators_ key cf wf = some v' ∧
        RegisterValidator.after validators_ key cf wf = v' ∧
        (∀ k, k ∈ UMap.keys v' ↔ (k = key ∨ k ∈ UMap.keys validators_)) ∧
        UMap.find v' key = some (cf, wf) ∧
        (∀ k, k ≠ key → UMap.find v' k = UMap.find validators_ k) ∧
        (UMap.WF validators_ → UMap.WF v')) := by
  refine ⟨?_, ?_, ?_⟩
  · rw [← UMap.find_isSome_iff_mem_keys]
    unfold RegisterValidator
    cases UMap.find validators_ key <;> simp
  · intro hk
    rw [← UMap.find_isSome_iff_mem_keys] at hk
    unfold RegisterValidator.after
    cases hf : UMap.find validators_ key with
    | none => simp [hf] at hk
    | some cw => rfl
  · intro hk
    have hf := (UMap.find_eq_none_iff validators_ key).mpr hk
    refine ⟨UMap.assign validators_ key (cf, wf), ?_, ?_, ?_, ?_, ?_, ?_⟩
    · unfold RegisterValidator
      rw [hf]
    · unfold RegisterValidator.after
      rw [hf]
    · intro k
      have : UMap.assign validators_ key (cf, wf) = validators_ ++ [(key, (cf, wf))] := by
        unfold UMap.assign
        rw [hf]
      rw [this, keys_append_singleton, List.mem_append, List.mem_singleton]
      exact Or.comm
    · simp [UMap.find_assign]
    · intro k hne
      simp [UMap.find_assign, hne]
    · exact WF_assign validators_ key (cf, wf)

/-- C14, on a registry holding `ORT_VERSION`: registering `ORT_VERSION` again throws and leaves
the registry, registering `DEVICE_MODEL` succeeds. -/
theorem C14_RegisterValidator_duplicate_key_witness :
    RegisterValidator.after
        [("ORT_VERSION", (CheckOrtVersion "1.15.0", WriteOrtVersion "1.15.0"))]
        "ORT_VERSION" CheckOrtGitCommit WriteOrtGitCommit
      = [("ORT_VERSION", (CheckOrtVersion "1.15.0", WriteOrtVersion "1.15.0"))] ∧
    ∃ v', RegisterValidator
        [("ORT_VERSION", (CheckOrtVersion "1.15.0", WriteOrtVersion "1.15.0"))]
        "DEVICE_MODEL" CheckOrtGitCommit WriteOrtGitCommit = some v' ∧
      UMap.find v' "DEVICE_MODEL" = some (CheckOrtGitCommit, WriteOrtGitCommit) :=
  ⟨(C14_RegisterValidator_duplicate_key
      [("ORT_VERSION", (CheckOrtVersion "1.15.0", WriteOrtVersion "1.15.0"))]
      "ORT_VERSION" CheckOrtGitCommit WriteOrtGitCommit).2.1 (by decide),
   let ⟨v', h1, _, _, h4, _, _⟩ := (C14_RegisterValidator_duplicate_key
      [("ORT_VERSION", (CheckOrtVersion "1.15.0", WriteOrtVersion "1.15.0"))]
      "DEVICE_MODEL" CheckOrtGitCommit WriteOrtGitCommit).2.2 (by decide)
   ⟨v', h1, h4⟩⟩

/-- C15: `WriteAll` snapshots exactly the registered keys.  For a registry (an unordered map,
so with unique keys) the map returned by `WriteAll` has the registered keys as its keys and no
other, holds under each registered key the string its write function returns, and is itself a
map with unique keys. -/
theorem C15_WriteAll_registered_keys (validators_ : CheckWriteFuncs)
    (hwf : UMap.WF validators_) :
    (∀ k, k ∈ UMap.keys (WriteAll validators_) ↔ k ∈ UMap.keys validators_) ∧
    (∀ k cf wf, UMap.find validators_ k = some (cf, wf) →
      UMap.find (WriteAll validators_) k = some (wf ())) ∧
    (∀ k, k ∉ UMap.keys validators_ → UMap.find (WriteAll validators_) k = none) ∧
    UMap.WF (WriteAll validators_) := by
  have hk := keys_WriteAll validators_ hwf
  refine ⟨fun k => by rw [hk], ?_, ?_, ?_⟩
  · intro k cf wf hf
    rw [WriteAll_eq_map validators_ hwf, find_map_snd validators_ (fun cw => cw.2 ()) k, hf]
    rfl
  · intro k hnot
    rw [UMap.find_eq_none_iff, hk]
    exact hnot
  · show (UMap.keys (WriteAll validators_)).Nodup
    rw [hk]
    exact hwf

/-- C15, on the base registry for version `1.15.0`. -/
theorem C15_WriteAll_registered_keys_witness :
    (∀ k, k ∈ UMap.keys (WriteAll
        [("ORT_VERSION", (CheckOrtVersion "1.15.0", WriteOrtVersion "1.15.0")),
         ("ORT_GIT_COMMIT", (CheckOrtGitCommit, WriteOrtGitCommit)),
         ("ORT_BUILD_CONFIG", (CheckOrtBuildConfig WriteOrtBuildConfig, WriteOrtBuildConfig))])
      ↔ k ∈ ["ORT_VERSION", "ORT_GIT_COMMIT", "ORT_BUILD_CONFIG"]) ∧
    UMap.find (WriteAll
        [("ORT_VERSION", (CheckOrtVersion "1.15.0", WriteOrtVersion "1.15.0")),
         ("ORT_GIT_COMMIT", (CheckOrtGitCommit, WriteOrtGitCommit)),
         ("ORT_BUILD_CONFIG", (CheckOrtBuildConfig WriteOrtBuildConfig, WriteOrtBuildConfig))])
      "ORT_VERSION" = some "1.15.0" :=
  ⟨(C15_WriteAll_registered_keys
      [("ORT_VERSION", (CheckOrtVersion "1.15.0", WriteOrtVersion "1.15.0")),
       ("ORT_GIT_COMMIT", (CheckOrtGitCommit, WriteOrtGitCommit)),
       ("ORT_BUILD_CONFIG", (CheckOrtBuildConfig WriteOrtBuildConfig, WriteOrtBuildConfig))]
      (by decide)).1,
   (C15_WriteAll_registered_keys
      [("ORT_VERSION", (CheckOrtVersion "1.15.0", WriteOrtVersion "1.15.0")),
       ("ORT_GIT_COMMIT", (CheckOrtGitCommit, WriteOrtGitCommit)),
       ("ORT_BUILD_CONFIG", (CheckOrtBuildConfig WriteOrtBuildConfig, WriteOrtBuildConfig))]
      (by decide)).2.1 "ORT_VERSION" (CheckOrtVersion "1.15.0") (WriteOrtVersion "1.15.0") rfl⟩

/-! ## The claim on the constructors -/

theorem keys_base_ctor (ORT_VERSION : String) (writeOrtBuildConfig : WriteFunc) :
    (TuningResultsValidator.ctor ORT_VERSION writeOrtBuildConfig).map UMap.keys
      = some ["ORT_VERSION", "ORT_GIT_COMMIT", "ORT_BUILD_CONFIG"] := rfl

theorem keys_cuda_ctor (ORT_VERSION : String) (version : Int) (deviceName : String) :
    (cuda.tunable.CudaTuningResultsValidator.ctor ORT_VERSION version deviceName).map UMap.keys
      = some ["ORT_VERSION", "ORT_GIT_COMMIT", "ORT_BUILD_CONFIG", "CUDA_VERSION",
          "DEVICE_MODEL"] := rfl

theorem keys_rocm_ctor (ORT_VERSION : String) (hipVersion : Int)
    (rocblasVersion deviceName : String) (ck : Nat) (api : Bool) :
    (rocm.tunable.RocmTuningResultsValidator.ctor ORT_VERSION hipVersion rocblasVersion
        deviceName ck api).map UMap.keys
      = some ["ORT_VERSION", "ORT_GIT_COMMIT", "ORT_BUILD_CONFIG", "HIP_VERSION",
          "ROCBLAS_VERSION", "DEVICE_MODEL"] := rfl

theorem keys_of_map_keys_eq (c : Option CheckWriteFuncs) (l : List String)
    (v : CheckWriteFuncs) (hl : c.map UMap.keys = some l) (hv : c = some v) :
    UMap.keys v = l := by
  subst hv
  simpa using hl

/-- A registry with the three mandatory keys fails `CheckMandatoryKeys` only through the
snapshot. -/
theorem CheckMandatoryKeys_eq_false_iff (validators_ : CheckWriteFuncs) (to_check : UMap String)
    (hreg : ∀ k ∈ mandatory_keys, k ∈ UMap.keys validators_) :
    CheckMandatoryKeys validators_ to_check = false ↔
      ∃ k ∈ mandatory_keys, k ∉ UMap.keys to_check := by
  have h := CheckMandatoryKeys_eq_true_iff validators_ to_check
  constructor
  · intro hf
    by_contra hne
    have hall : ∀ k ∈ mandatory_keys, k ∈ UMap.keys to_check := by
      intro k hk
      by_contra hc
      exact hne ⟨k, hk, hc⟩
    rw [h.mpr ⟨hreg, hall⟩] at hf
    cases hf
  · rintro ⟨k, hk, hnot⟩
    cases hc : CheckMandatoryKeys validators_ to_check with
    | false => rfl
    | true => exact absurd ((h.mp hc).2 k hk) hnot

/-- C18: the backend validators are built by composition without a registration conflict.  For
every value of the version macro and of the probes, the constructors of the base, the CUDA and
the ROCm validator run through all their registrations, and the registered keys are the three
mandatory keys for the base, those plus `CUDA_VERSION`, `DEVICE_MODEL` for CUDA, and those plus
`HIP_VERSION`, `ROCBLAS_VERSION`, `DEVICE_MODEL` for ROCm.  So every constructed validator has
unique keys and the three mandatory keys registered, and `CheckMandatoryKeys` fails on it
exactly when the snapshot lacks a mandatory key. -/
theorem C18_constructors_register_without_conflict (ORT_VERSION : String)
    (writeOrtBuildConfig : WriteFunc) (cudaVersion hipVersion : Int)
    (rocblasVersion deviceName : String) (ck : Nat) (api : Bool) :
    (TuningResultsValidator.ctor ORT_VERSION writeOrtBuildConfig).map UMap.keys
      = some ["ORT_VERSION", "ORT_GIT_COMMIT", "ORT_BUILD_CONFIG"] ∧
    (cuda.tunable.CudaTuningResultsValidator.ctor ORT_VERSION cudaVersion deviceName).map
        UMap.keys
      = some ["ORT_VERSION", "ORT_GIT_COMMIT", "ORT_BUILD_CONFIG", "CUDA_VERSION",
          "DEVICE_MODEL"] ∧
    (rocm.tunable.RocmTuningResultsValidator.ctor ORT_VERSION hipVersion rocblasVersion
        deviceName ck api).map UMap.keys
      = some ["ORT_VERSION", "ORT_GIT_COMMIT", "ORT_BUILD_CONFIG", "HIP_VERSION",
          "ROCBLAS_VERSION", "DEVICE_MODEL"] ∧
    (∀ v : CheckWriteFuncs,
      (TuningResultsValidator.ctor ORT_VERSION writeOrtBuildConfig = some v ∨
        cuda.tunable.CudaTuningResultsValidator.ctor ORT_VERSION cudaVersion deviceName
          = some v ∨
        rocm.tunable.RocmTuningResultsValidator.ctor ORT_VERSION hipVersion rocblasVersion
          deviceName ck api = some v) →
      UMap.WF v ∧ (∀ k ∈ mandatory_keys, k ∈ UMap.keys v) ∧
      ∀ to_check : UMap String,
        (CheckMandatoryKeys v to_check = false ↔
          ∃ k ∈ mandatory_keys, k ∉ UMap.keys to_check)) := by
  refine ⟨rfl, rfl, rfl, ?_⟩
  intro v hv
  have hkeys : UMap.WF v ∧ ∀ k ∈ mandatory_keys, k ∈ UMap.keys v := by
    rcases hv with h1 | h2 | h3
    · have := keys_of_map_keys_eq _ _ v (keys_base_ctor ORT_VERSION writeOrtBuildConfig) h1
      unfold UMap.WF
      rw [this]
      exact ⟨by decide, by decide⟩
    · have := keys_of_map_keys_eq _ _ v (keys_cuda_ctor ORT_VERSION cudaVersion deviceName) h2
      unfold UMap.WF
      rw [this]
      exact ⟨by decide, by decide⟩
    · have := keys_of_map_keys_eq _ _ v
        (keys_rocm_ctor ORT_VERSION hipVersion rocblasVersion deviceName ck api) h3
      unfold UMap.WF
      rw [this]
      exact ⟨by decide, by decide⟩
  exact ⟨hkeys.1, hkeys.2, fun to_check => CheckMandatoryKeys_eq_false_iff v to_check hkeys.2⟩

/-- C18, on the CUDA validator for version `1.15.0`, runtime 11080 and device `A100`: it is
constructed, and `CheckMandatoryKeys` fails on a snapshot exactly for a missing mandatory
key. -/
theorem C18_constructors_register_without_conflict_witness :
    (cuda.tunable.CudaTuningResultsValidator.ctor "1.15.0" 11080 "A100").isSome = true ∧
    ∀ v, cuda.tunable.CudaTuningResultsValidator.ctor "1.15.0" 11080 "A100" = some v →
      (CheckMandatoryKeys v [("ORT_VERSION", "1.15.0"), ("CUDA_VERSION", "11080")] = false ↔
        ∃ k ∈ mandatory_keys,
          k ∉ UMap.keys [("ORT_VERSION", "1.15.0"), ("CUDA_VERSION", "11080")]) :=
  ⟨rfl, fun v hv =>
    ((C18_constructors_register_without_conflict "1.15.0" WriteOrtBuildConfig 11080 50422000
      "4.0.0" "A100" 1 false).2.2.2 v (Or.inr (Or.inl hv))).2.2
      [("ORT_VERSION", "1.15.0"), ("CUDA_VERSION", "11080")]⟩

/-! ## The round trip `CheckAll (WriteAll ())` -/

theorem string_lt_irrefl (a : String) : string_lt a a = false := by
  simp [string_lt]

theorem set_intersection_self (l : List String) : set_intersection l l = l := by
  induction l with
  | nil => rfl
  | cons a as ih =>
    rw [set_intersection_cons_cons]
    simp [string_lt_irrefl, ih]

/-- `CheckKeysMatching` passes when the registry and the snapshot enumerate the same keys in
the same order. -/
theorem CheckKeysMatching_of_keys_eq (h : HashOrder) (cw_funcs : CheckWriteFuncs)
    (to_check : UMap String) (hk : UMap.keys to_check = UMap.keys cw_funcs) :
    CheckKeysMatching h cw_funcs to_check = true := by
  have hR := h.perm _ (List.nodup_dedup (UMap.keys cw_funcs))
  have hRn : (h.order (UMap.keys cw_funcs).dedup).Nodup :=
    hR.nodup_iff.mpr (List.nodup_dedup _)
  have hI := h.perm _ (List.nodup_dedup (h.order (UMap.keys cw_funcs).dedup))
  unfold CheckKeysMatching
  simp only [hk, set_intersection_self]
  have hlen : (h.order (h.order (UMap.keys cw_funcs).dedup).dedup).length
      = (h.order (UMap.keys cw_funcs).dedup).length := by
    rw [hI.length_eq, hRn.dedup]
  simp [hlen]

/-- The round trip succeeds when the snapshot returned by `WriteAll` is enumerated in the order
of the registry: the registry has unique keys, holds the mandatory keys, and every check
accepts what its write function returns. -/
theorem CheckAll_WriteAll_same_order (h : HashOrder) (validators_ : CheckWriteFuncs)
    (hwf : UMap.WF validators_) (hreg : ∀ k ∈ mandatory_keys, k ∈ UMap.keys validators_)
    (hself : ∀ kw ∈ validators_, kw.2.1 (kw.2.2 ()) = .OK) :
    CheckAll h validators_ (WriteAll validators_) = (WriteAll validators_, .returned .OK) := by
  have hk := keys_WriteAll validators_ hwf
  have hmk : CheckMandatoryKeys validators_ (WriteAll validators_) = true := by
    rw [CheckMandatoryKeys_eq_true_iff, hk]
    exact ⟨hreg, hreg⟩
  have hkm := CheckKeysMatching_of_keys_eq h validators_ (WriteAll validators_) hk
  rw [CheckAll_eq_checkLoop h validators_ _ hmk hkm]
  rcases checkLoop_spec validators_ (WriteAll validators_)
      (registered_of_key_phase h validators_ _ hkm) with
    ⟨_, hres⟩ | ⟨pre, k, val, post, cf, wf, msg, h1, _, h3, h4, _⟩
  · exact hres
  · exfalso
    have hmem : (k, val) ∈ WriteAll validators_ := by
      rw [h1]
      exact List.mem_append_right _ (List.mem_cons_self _ _)
    rw [WriteAll_eq_map validators_ hwf, List.mem_map] at hmem
    obtain ⟨kw, hkw, heq⟩ := hmem
    simp only [Prod.mk.injEq] at heq
    have hfind := UMap.find_eq_some_of_mem validators_ hwf kw.1 kw.2 hkw
    rw [heq.1, h3] at hfind
    have hcw : kw.2 = (cf, wf) := (Option.some.inj hfind).symm
    have := hself kw hkw
    rw [hcw] at this
    rw [← heq.2, hcw] at h4
    have hok : cf ((cf, wf).2 ()) = Status.OK := this
    rw [hok] at h4
    cases h4

/-- When `CheckAll` returns OK, every registered check accepted the value the snapshot provides
under its key. -/
theorem accepted_of_CheckAll_OK (h : HashOrder) (validators_ : CheckWriteFuncs)
    (to_check : UMap String) (hok : (CheckAll h validators_ to_check).2 = .returned .OK)
    (k : String) (cf : CheckFunc) (wf : WriteFunc)
    (hfind : UMap.find validators_ k = some (cf, wf)) :
    ∃ val, UMap.find to_check k = some val ∧ cf val = .OK := by
  by_cases hp : CheckMandatoryKeys validators_ to_check = true ∧
      CheckKeysMatching h validators_ to_check = true
  · have hCA := CheckAll_eq_checkLoop h validators_ to_check hp.1 hp.2
    have hall : ∀ kv ∈ to_check,
        ∃ cf wf, UMap.find validators_ kv.1 = some (cf, wf) ∧ cf kv.2 = .OK := by
      rcases checkLoop_spec validators_ to_check
          (registered_of_key_phase h validators_ to_check hp.2) with
        ⟨hall, _⟩ | ⟨pre, k', val, post, cf', wf', msg, _, _, _, _, h5⟩
      · exact hall
      · rw [hCA, h5] at hok
        cases hok
    have hk : k ∈ UMap.keys to_check := by
      rw [← keys_eq_of_CheckKeysMatching h validators_ to_check hp.2,
        ← UMap.find_isSome_iff_mem_keys, hfind]
      rfl
    rw [← UMap.find_isSome_iff_mem_keys] at hk
    cases hv : UMap.find to_check k with
    | none => simp [hv] at hk
    | some val =>
      obtain ⟨cf', wf', hf', hok'⟩ := hall (k, val) (UMap.mem_of_find_eq_some to_check k val hv)
      rw [hfind] at hf'
      cases hf'
      exact ⟨val, rfl, hok'⟩
  · rw [CheckAll_of_key_phase_failed h validators_ to_check hp] at hok
    cases hok

theorem CheckOrtVersion_eq_OK_iff (ver v : String) :
    CheckOrtVersion ver v = .OK ↔ v = WriteOrtVersion ver () := by
  unfold CheckOrtVersion WriteOrtVersion
  by_cases h : v = ver <;> simp [h]

theorem CheckOrtBuildConfig_eq_OK_iff (w : WriteFunc) (v : String) :
    CheckOrtBuildConfig w v = .OK ↔ v = w () := by
  unfold CheckOrtBuildConfig
  by_cases h : w () = v
  · simp [h]
  · have h' : ¬ v = w () := fun c => h c.symm
    simp [h, h']

/-! ## The claims that fail on the code -/

/-- C12 fails on the code.  For the base validator (version `1.15.0`) `WriteAll` returns the
map with the three mandatory keys and the written values.  Enumerated in the order of the
registry it passes `CheckAll`; enumerated in the opposite order, the very same map is rejected
by `CheckAll`, with the unordered sets enumerating in insertion order as well as last inserted
first, and also when every container, the registry included, enumerates last inserted first:
`std::set_intersection` runs over two unsorted iteration orders in `CheckKeysMatching`. -/
theorem C12_round_trip_rejected :
    (TuningResultsValidator.ctor "1.15.0" WriteOrtBuildConfig).map WriteAll
      = some [("ORT_VERSION", "1.15.0"), ("ORT_GIT_COMMIT", ""), ("ORT_BUILD_CONFIG", "")] ∧
    (TuningResultsValidator.ctor "1.15.0" WriteOrtBuildConfig).map
        (fun v => CheckAll HashOrder.insertion v (WriteAll v))
      = some ([("ORT_VERSION", "1.15.0"), ("ORT_GIT_COMMIT", ""), ("ORT_BUILD_CONFIG", "")],
          .returned .OK) ∧
    (TuningResultsValidator.ctor "1.15.0" WriteOrtBuildConfig).map
        (fun v => CheckAll HashOrder.insertion v (WriteAll v).reverse)
      = some ([], .returned (.error
        "An error occurs during the loading of tuning results. Check logs for more details.")) ∧
    (TuningResultsValidator.ctor "1.15.0" WriteOrtBuildConfig).map
        (fun v => CheckAll HashOrder.reversed v (WriteAll v).reverse)
      = some ([], .returned (.error
        "An error occurs during the loading of tuning results. Check logs for more details.")) ∧
    (TuningResultsValidator.ctor "1.15.0" WriteOrtBuildConfig).map
        (fun v => CheckAll HashOrder.reversed v.reverse (WriteAll v.reverse).reverse)
      = some ([], .returned (.error
        "An error occurs during the loading of tuning results. Check logs for more details.")) := by
  decide

/-- C13 fails on the code for `ORT_GIT_COMMIT`.  The checks registered under `ORT_VERSION` and
`ORT_BUILD_CONFIG` accept a value exactly when it is the string their write function returns.
The check registered under `ORT_GIT_COMMIT` accepts every value, while its write function
returns the empty string: the base validator (version `1.15.0`) accepts the value `0123abc`,
and `CheckAll` returns OK on a snapshot that differs from `WriteAll ()` in the value of
`ORT_GIT_COMMIT`.  A snapshot on which `CheckAll` returns OK holds the written values under
`ORT_VERSION` and `ORT_BUILD_CONFIG`. -/
theorem C13_git_commit_check_accepts_any_value :
    (∀ ver v, CheckOrtVersion ver v = .OK ↔ v = WriteOrtVersion ver ()) ∧
    (∀ (w : WriteFunc) v, CheckOrtBuildConfig w v = .OK ↔ v = w ()) ∧
    (∀ v, CheckOrtGitCommit v = .OK) ∧
    (∀ (ver : String) (w : WriteFunc), TuningResultsValidator.ctor ver w
      = some [("ORT_VERSION", (CheckOrtVersion ver, WriteOrtVersion ver)),
              ("ORT_GIT_COMMIT", (CheckOrtGitCommit, WriteOrtGitCommit)),
              ("ORT_BUILD_CONFIG", (CheckOrtBuildConfig w, w))]) ∧
    (∀ (h : HashOrder) (ver : String) (w : WriteFunc) (to_check : UMap String),
      (CheckAll h [("ORT_VERSION", (CheckOrtVersion ver, WriteOrtVersion ver)),
                   ("ORT_GIT_COMMIT", (CheckOrtGitCommit, WriteOrtGitCommit)),
                   ("ORT_BUILD_CONFIG", (CheckOrtBuildConfig w, w))] to_check).2
          = .returned .OK →
      UMap.find to_check "ORT_VERSION" = some ver ∧
      UMap.find to_check "ORT_BUILD_CONFIG" = some (w ())) ∧
    (TuningResultsValidator.ctor "1.15.0" WriteOrtBuildConfig).bind
        (fun v => (UMap.find v "ORT_GIT_COMMIT").map (fun cw => (cw.1 "0123abc", cw.2 ())))
      = some (.OK, "") ∧
    (TuningResultsValidator.ctor "1.15.0" WriteOrtBuildConfig).map WriteAll
      = some [("ORT_VERSION", "1.15.0"), ("ORT_GIT_COMMIT", ""), ("ORT_BUILD_CONFIG", "")] ∧
    (TuningResultsValidator.ctor "1.15.0" WriteOrtBuildConfig).map
        (fun v => CheckAll HashOrder.insertion v
          [("ORT_VERSION", "1.15.0"), ("ORT_GIT_COMMIT", "0123abc"), ("ORT_BUILD_CONFIG", "")])
      = some ([("ORT_VERSION", "1.15.0"), ("ORT_GIT_COMMIT", "0123abc"),
          ("ORT_BUILD_CONFIG", "")], .returned .OK) := by
  refine ⟨CheckOrtVersion_eq_OK_iff, CheckOrtBuildConfig_eq_OK_iff, fun _ => rfl,
    fun _ _ => rfl, ?_, by decide, by decide, by decide⟩
  intro h ver w to_check hok
  obtain ⟨v1, hf1, hc1⟩ := accepted_of_CheckAll_OK h _ to_check hok "ORT_VERSION"
    (CheckOrtVersion ver) (WriteOrtVersion ver) rfl
  obtain ⟨v2, hf2, hc2⟩ := accepted_of_CheckAll_OK h _ to_check hok "ORT_BUILD_CONFIG"
    (CheckOrtBuildConfig w) w rfl
  rw [CheckOrtVersion_eq_OK_iff] at hc1
  rw [CheckOrtBuildConfig_eq_OK_iff] at hc2
  rw [hf1, hf2, hc1, hc2]
  exact ⟨rfl, rfl⟩

/-! ## The claim on `LoadTuningResults` -/

/-- C16: all-or-nothing load.  When `CheckAll` on the validators of the persisted state returns
an error, `LoadTuningResults` returns that error, the manager and its `Dump` are what they were
before the call, and `Load` was not invoked; `Load` is invoked exactly when `CheckAll` returned
OK, and then the manager is the one `Load` produces. -/
theorem C16_LoadTuningResults_all_or_nothing (h : HashOrder) (validator : CheckWriteFuncs)
    (manager : TuningResultsManager) (tr : TuningResults) :
    (∀ msg, (CheckAll h validator tr.validators).2 = .returned (.error msg) →
      (LoadTuningResults h validator manager tr).1 = .returned (.error msg) ∧
      (LoadTuningResults h validator manager tr).2.1 = manager ∧
      (LoadTuningResults h validator manager tr).2.1.Dump = manager.Dump ∧
      (LoadTuningResults h validator manager tr).2.2 = false) ∧
    ((LoadTuningResults h validator manager tr).2.2 = true ↔
      (CheckAll h validator tr.validators).2 = .returned .OK) ∧
    ((CheckAll h validator tr.validators).2 = .returned .OK →
      (LoadTuningResults h validator manager tr).1 = .returned .OK ∧
      (LoadTuningResults h validator manager tr).2.1 = manager.Load tr.results) := by
  unfold LoadTuningResults
  cases hc : (CheckAll h validator tr.validators).2 with
  | enforceFailed => simp
  | returned st =>
    cases st with
    | OK => simp
    | error m => simp

/-- C16, on the base registry and a persisted state whose snapshot is empty: the load is
refused and the recorded entry stays. -/
theorem C16_LoadTuningResults_all_or_nothing_witness :
    (LoadTuningResults HashOrder.insertion
        [("ORT_VERSION", (CheckOrtVersion "1.15.0", WriteOrtVersion "1.15.0")),
         ("ORT_GIT_COMMIT", (CheckOrtGitCommit, WriteOrtGitCommit)),
         ("ORT_BUILD_CONFIG", (CheckOrtBuildConfig WriteOrtBuildConfig, WriteOrtBuildConfig))]
        ⟨[("gemm", [("m1", 7)])]⟩ ⟨"CUDA", [], [("gemm", [("m1", 9), ("m2", 2)])]⟩).2.1.Dump
      = [("gemm", [("m1", 7)])] :=
  ((C16_LoadTuningResults_all_or_nothing HashOrder.insertion
      [("ORT_VERSION", (CheckOrtVersion "1.15.0", WriteOrtVersion "1.15.0")),
       ("ORT_GIT_COMMIT", (CheckOrtGitCommit, WriteOrtGitCommit)),
       ("ORT_BUILD_CONFIG", (CheckOrtBuildConfig WriteOrtBuildConfig, WriteOrtBuildConfig))]
      ⟨[("gemm", [("m1", 7)])]⟩ ⟨"CUDA", [], [("gemm", [("m1", 9), ("m2", 2)])]⟩).1
      "An error occurs during the loading of tuning results. Check logs for more details."
      (by decide)).2.2.1

/-! ## The claim on the lock -/

theorem MergeImpl_events_access (op : String) (km : KernelMap) (results : UMap KernelMap) :
    ∀ e ∈ MergeImpl.events op km results, e = LockEvent.access := by
  intro e he
  unfold MergeImpl.events at he
  rcases List.mem_cons.mp he with rfl | he'
  · rfl
  · cases hf : UMap.find results op with
    | none =>
      rw [hf] at he'
      simpa using he'
    | some m =>
      rw [hf] at he'
      simp only [List.mem_flatMap] at he'
      obtain ⟨_, _, hin⟩ := he'
      simpa [AddImpl.events] using hin

theorem loadLoopEvents_access (r : UMap KernelMap) (results : UMap KernelMap) :
    ∀ e ∈ loadLoopEvents results r, e = LockEvent.access := by
  induction r generalizing results with
  | nil => intro e he; simp [loadLoopEvents] at he
  | cons okm rest ih =>
    obtain ⟨op, km⟩ := okm
    intro e he
    simp only [loadLoopEvents, List.mem_append] at he
    rcases he with h1 | h2
    · exact MergeImpl_events_access op km results e h1
    · exact ih _ e h2

/-- C17 fails on the code for `Clear`.  `Lookup` (both overloads), `Add`, `Dump`, `Load` and
`Merge` acquire the lock first, release it last and never acquire it in between, the helpers
`AddImpl` and `MergeImpl` never acquire it; `Clear` assigns to the map without acquiring the
lock at all. -/
theorem C17_Clear_takes_no_lock :
    HoldsLockThroughout TuningResultsManager.Lookup.events ∧
    HoldsLockThroughout TuningResultsManager.Lookup2.events ∧
    HoldsLockThroughout TuningResultsManager.Add.events ∧
    HoldsLockThroughout TuningResultsManager.Dump.events ∧
    (∀ s r, HoldsLockThroughout (TuningResultsManager.Load.events s r)) ∧
    (∀ s op km, HoldsLockThroughout (TuningResultsManager.Merge.events s op km)) ∧
    LockEvent.lock ∉ AddImpl.events ∧
    (∀ op km results, LockEvent.lock ∉ MergeImpl.events op km results) ∧
    TuningResultsManager.Clear.events = [LockEvent.access] ∧
    LockEvent.lock ∉ TuningResultsManager.Clear.events ∧
    ¬ HoldsLockThroughout TuningResultsManager.Clear.events := by
  refine ⟨⟨[.access], rfl, by simp⟩, ⟨[.access], rfl, by simp⟩,
    ⟨[.access, .access], rfl, by simp⟩, ⟨[.access], rfl, by simp⟩, ?_, ?_, by decide, ?_, rfl,
    by decide, ?_⟩
  · intro s r
    exact ⟨loadLoopEvents s.results_ r, rfl, loadLoopEvents_access r s.results_⟩
  · intro s op km
    exact ⟨MergeImpl.events op km s.results_, rfl, MergeImpl_events_access op km s.results_⟩
  · intro op km results hmem
    have := MergeImpl_events_access op km results _ hmem
    cases this
  · rintro ⟨body, hb, _⟩
    simp [TuningResultsManager.Clear.events] at hb

end onnxruntime
